import Mathlib

set_option maxRecDepth 8192

/-!
Verification of the chunking subsystem of the `ragger` repository
(`src/util/smart_chunking.py`, class `SmartDocumentChunker`).

Python strings are modelled as Lean `String` (a wrapper around `List Char`);
`len` is `String.length` (number of characters, as in Python).  All string
operations used by the source (`split`, `strip`, `lower`, substring test,
`int(...)`, f-string formatting of integers) are re-implemented below over
`List Char`, faithful to Python semantics on the ASCII inputs the claims
concern.  Fallible Python code (which can raise `ValueError`) is embedded
with `Except String`.
-/

/-- Whitespace characters recognised by Python's `str.strip` and the regex
class `\s` (ASCII range). -/
def isPySpace (c : Char) : Bool :=
  c == ' ' || c == '\t' || c == '\n' || c == '\r' || c == '\x0b' || c == '\x0c'

/-- Characters dropped from both ends, as Python's `str.strip()`. -/
def trimChars (l : List Char) : List Char :=
  ((l.dropWhile isPySpace).reverse.dropWhile isPySpace).reverse

/-- Python `s.strip()`. -/
def pyStrip (s : String) : String := ⟨trimChars s.data⟩

/-- Python `s.lower()` (ASCII case mapping, which covers the inputs used). -/
def pyLower (s : String) : String := ⟨s.data.map Char.toLower⟩

/-- Does the second list start with the first one? -/
def startsWithChars : List Char → List Char → Bool
  | [], _ => true
  | _ :: _, [] => false
  | a :: as, b :: bs => a == b && startsWithChars as bs

/-- Python's substring containment over char lists. -/
def containsChars (needle : List Char) : List Char → Bool
  | [] => startsWithChars needle []
  | c :: rest => startsWithChars needle (c :: rest) || containsChars needle rest

/-- Python `needle in s` (contiguous substring test). -/
def pyIn (needle s : String) : Bool := containsChars needle.data s.data

/-- Fuel-driven worker for `pySplit`; the fuel is always at least the length
of the list, so the `0` case is never reached at the call site. -/
def splitOnGo (sep : List Char) : Nat → List Char → List (List Char)
  | 0, l => [l]
  | _ + 1, [] => [[]]
  | fuel + 1, c :: rest =>
    if startsWithChars sep (c :: rest) then
      [] :: splitOnGo sep fuel ((c :: rest).drop sep.length)
    else
      match splitOnGo sep fuel rest with
      | [] => [[c]]
      | r :: rs => (c :: r) :: rs

/-- Python `s.split(sep)` for a non-empty separator: splits at the
leftmost non-overlapping occurrences; `"".split(sep) = [""]`. -/
def pySplit (s sep : String) : List String :=
  if sep.data == [] then [s]
  else (splitOnGo sep.data (s.data.length + 1) s.data).map (fun l => ⟨l⟩)

/-- First occurrence of `sep`: returns the part before it and the part after
it, or `none` when `sep` does not occur. -/
def breakOnGo (sep : List Char) : List Char → Option (List Char × List Char)
  | [] => if startsWithChars sep [] then some ([], []) else none
  | c :: rest =>
    if startsWithChars sep (c :: rest) then some ([], (c :: rest).drop sep.length)
    else
      match breakOnGo sep rest with
      | some (a, b) => some (c :: a, b)
      | none => none

/-- Python `s.split(sep, 1)[-1] if sep in s else s`: everything after the
first occurrence of `sep`, or the whole string. -/
def afterMarker (sep s : String) : String :=
  match breakOnGo sep.data s.data with
  | some (_, b) => ⟨b⟩
  | none => s

/-- Python `s.split(sep)[0]`: everything before the first occurrence of
`sep`, or the whole string. -/
def beforeMarker (sep s : String) : String :=
  match breakOnGo sep.data s.data with
  | some (a, _) => ⟨a⟩
  | none => s

/-- Value of an ASCII digit character. -/
def digitVal (c : Char) : Nat := c.toNat - 48

/-- Decimal value of a digit list (most significant first). -/
def readDigits (l : List Char) : Nat := l.foldl (fun a c => 10 * a + digitVal c) 0

/-- Python `int(s)`: strips whitespace, accepts an optional sign followed by
at least one (ASCII) digit, otherwise raises; the raise is modelled as
`none`.  (Python additionally accepts underscore digit grouping and Unicode
digits; no input in this development uses either.) -/
def pyInt? (s : String) : Option Int :=
  match trimChars s.data with
  | '-' :: ds =>
    if ds != [] && ds.all Char.isDigit then some (-(readDigits ds : Int)) else none
  | '+' :: ds =>
    if ds != [] && ds.all Char.isDigit then some ((readDigits ds : Int)) else none
  | ds =>
    if ds != [] && ds.all Char.isDigit then some ((readDigits ds : Int)) else none

/-- Decimal digit character for values below ten. -/
def digitChar : Nat → Char
  | 0 => '0' | 1 => '1' | 2 => '2' | 3 => '3' | 4 => '4'
  | 5 => '5' | 6 => '6' | 7 => '7' | 8 => '8' | _ => '9'

/-- Fuel-driven decimal digit expansion; the fuel at the call site exceeds
the number of digits, so the `0` case is never reached. -/
def natDigitsF : Nat → Nat → List Char
  | 0, _ => []
  | fuel + 1, n =>
    if n < 10 then [digitChar n]
    else natDigitsF fuel (n / 10) ++ [digitChar (n % 10)]

/-- Decimal representation of a natural number, as Python `str(n)`. -/
def natRepr (n : Nat) : String := ⟨natDigitsF (n + 1) n⟩

/-- Decimal representation of an integer, as Python `str(n)` / f-string
formatting of an `int`. -/
def intRepr (n : Int) : String :=
  if n < 0 then "-" ++ natRepr n.natAbs else natRepr n.toNat

/-- Splitter configuration: `chunk_size` and `chunk_overlap` of
`SmartDocumentChunker.__init__` (defaults 1000 and 200). -/
structure Cfg where
  maxSize : Nat
  overlap : Nat
deriving DecidableEq

/-- Largest position `j ≤ k`, `j ≥ 1`, such that the character just before
position `j` satisfies `pred`; used to scan backward for a natural boundary. -/
def lastCut (pred : Char → Bool) (l : List Char) : Nat → Option Nat
  | 0 => none
  | j + 1 =>
    match l.get? j with
    | some c => if pred c then some (j + 1) else lastCut pred l j
    | none => lastCut pred l j

/-- Boundary-preferring cut position in `[1, maxSize]` (for `maxSize ≥ 1`):
nearest line/paragraph break scanning backward from the cutoff, then nearest
word break, then a hard cut at exactly `maxSize`. -/
def findCut (maxSize : Nat) (l : List Char) : Nat :=
  match lastCut (fun c => c == '\n') l maxSize with
  | some j => j
  | none =>
    match lastCut (fun c => c == ' ') l maxSize with
    | some j => j
    | none => maxSize

/-- Modelled from the spec: the Size-Bounded Splitter (the source delegates
to `RecursiveCharacterTextSplitter.split_text` of the external langchain
library, which is not part of this repository).  Per the spec: text of
length at most `maxSize` yields the single trimmed text (nothing when it is
whitespace-only); longer text is cut at the nearest preferred boundary
scanning backward from the `maxSize` cutoff — paragraph/line break, then
word break, then a hard cut at exactly `maxSize` — the piece is emitted
trimmed (dropped when whitespace-only), and the next piece restarts
`overlap` characters before the cut.  Fuel-driven; the fuel at the call
site exceeds the length, so the `0` case is never reached. -/
def splitCharsF (maxSize overlap : Nat) : Nat → List Char → List (List Char)
  | 0, _ => []
  | fuel + 1, l =>
    if l.length ≤ maxSize then
      if trimChars l == [] then [] else [trimChars l]
    else
      let k := findCut maxSize l
      let piece := trimChars (l.take k)
      let rest := splitCharsF maxSize overlap fuel (l.drop (max (k - overlap) 1))
      if piece == [] then rest else piece :: rest

/-- Modelled from the spec: Size-Bounded Splitter over char lists. -/
def splitChars (maxSize overlap : Nat) (l : List Char) : List (List Char) :=
  splitCharsF maxSize overlap (l.length + 1) l

/-- Modelled from the spec: Size-Bounded Splitter over strings
(`self.default_splitter.split_text` in the source). -/
def splitText (cfg : Cfg) (s : String) : List String :=
  (splitChars cfg.maxSize cfg.overlap s.data).map (fun l => ⟨l⟩)

/-- One output chunk: `page_content` plus the metadata dictionary of the
source (`None`-valued / absent keys modelled with `Option`). -/
structure Chunk where
  content : String
  source : String
  chunkId : String
  docType : String
  page : Option Int := none
  slide : Option Int := none
  totalPages : Option Nat := none
  totalSlides : Option Nat := none
  totalChunks : Option Nat := none
  images : Option (List (String × String)) := none
  links : Option (List String) := none
deriving DecidableEq

/-- Image filter of `_chunk_pdf`/`_chunk_pptx`: the images whose identifier
contains the positional tag (`f"page{page_num}" in img[0]`). -/
def imagesFor (tag : String) (images : List (String × String)) :
    List (String × String) :=
  images.filter (fun im => pyIn tag im.1)

/-- Chunk built for one piece of an oversized pdf page. -/
def pdfSplitChunk (src : String) (images : List (String × String))
    (links : List String) (totalPages : Nat) (n : Int) (j : Nat)
    (piece : String) : Chunk :=
  { content := piece, source := src,
    chunkId := "page_" ++ intRepr n ++ "_chunk_" ++ natRepr j,
    docType := "pdf", page := some n, totalPages := some totalPages,
    images := some (imagesFor ("page" ++ intRepr n) images),
    links := some links }

/-- Chunk built for a pdf page emitted whole. -/
def pdfWholeChunk (src : String) (images : List (String × String))
    (links : List String) (totalPages : Nat) (n : Int) (body : String) :
    Chunk :=
  { content := body, source := src, chunkId := "page_" ++ intRepr n,
    docType := "pdf", page := some n, totalPages := some totalPages,
    images := some (imagesFor ("page" ++ intRepr n) images),
    links := some links }

/-- Chunks emitted for one retained pdf segment `(n, body)`: split when the
body exceeds `chunk_size`, else one chunk. -/
def pdfSegChunks (cfg : Cfg) (src : String) (images : List (String × String))
    (links : List String) (totalPages : Nat) (n : Int) (body : String) :
    List Chunk :=
  if body.length > cfg.maxSize then
    (splitText cfg body).enum.map
      (fun jc => pdfSplitChunk src images links totalPages n jc.1 jc.2)
  else [pdfWholeChunk src images links totalPages n body]

/-- Label of an enumerated page/slide part, as in the source:
`i if i == 0 else int(part.split(' ---')[0])`; the `int` raise is `none`. -/
def segLabel (i : Nat) (part : String) : Option Int :=
  if i = 0 then some 0 else pyInt? (beforeMarker " ---" part)

/-- Loop body of `_chunk_pdf` over the enumerated `text.split('--- Page ')`
parts; a `ValueError` from `int(...)` aborts the whole call. -/
def chunkPdfGo (cfg : Cfg) (src : String) (images : List (String × String))
    (links : List String) (totalPages : Nat) :
    List (Nat × String) → Except String (List Chunk)
  | [] => .ok []
  | (i, pc) :: rest =>
    if pyStrip pc = "" then chunkPdfGo cfg src images links totalPages rest
    else
      match segLabel i pc with
      | none => .error "ValueError: invalid literal for int() with base 10"
      | some n =>
        match chunkPdfGo cfg src images links totalPages rest with
        | .error e => .error e
        | .ok cs =>
          .ok (pdfSegChunks cfg src images links totalPages n
                (afterMarker "---\n" pc) ++ cs)

/-- `SmartDocumentChunker._chunk_pdf`. -/
def chunkPdf (cfg : Cfg) (text src : String)
    (images : List (String × String)) (links : List String) :
    Except String (List Chunk) :=
  let pages := pySplit text "--- Page "
  chunkPdfGo cfg src images links (pages.length - 1) pages.enum

/-- Chunk built for one retained non-blank pptx slide. -/
def pptxChunk (src : String) (images : List (String × String))
    (links : List String) (totalSlides : Nat) (n : Int) (body : String) :
    Chunk :=
  { content := pyStrip body, source := src, chunkId := "slide_" ++ intRepr n,
    docType := "pptx", slide := some n, totalSlides := some totalSlides,
    images := some (imagesFor ("slide" ++ intRepr n) images),
    links := some links }

/-- Loop body of `_chunk_pptx` over the enumerated
`text.split('--- Slide ')` parts. -/
def chunkPptxGo (cfg : Cfg) (src : String) (images : List (String × String))
    (links : List String) (totalSlides : Nat) :
    List (Nat × String) → Except String (List Chunk)
  | [] => .ok []
  | (i, sc) :: rest =>
    if pyStrip sc = "" then chunkPptxGo cfg src images links totalSlides rest
    else
      match segLabel i sc with
      | none => .error "ValueError: invalid literal for int() with base 10"
      | some n =>
        match chunkPptxGo cfg src images links totalSlides rest with
        | .error e => .error e
        | .ok cs =>
          .ok ((if pyStrip (afterMarker "---\n" sc) = "" then []
                else [pptxChunk src images links totalSlides n
                       (afterMarker "---\n" sc)]) ++ cs)

/-- `SmartDocumentChunker._chunk_pptx`. -/
def chunkPptx (cfg : Cfg) (text src : String)
    (images : List (String × String)) (links : List String) :
    Except String (List Chunk) :=
  let slides := pySplit text "--- Slide "
  chunkPptxGo cfg src images links (slides.length - 1) slides.enum

/-- Paragraph list of `_chunk_docx`:
`[p.strip() for p in text.split('\n') if p.strip()]`. -/
def docxParagraphs (text : String) : List String :=
  (pySplit text "\n").filterMap
    (fun p => if pyStrip p = "" then none else some (pyStrip p))

/-- Chunk built by a docx buffer flush. -/
def docxChunk (src : String) (images : List (String × String))
    (links : List String) (k : Nat) (content : String) : Chunk :=
  { content := content, source := src, chunkId := "docx_chunk_" ++ natRepr k,
    docType := "docx", images := some images, links := some links }

/-- Loop of `_chunk_docx`: greedy accumulation of paragraphs into `current`
with counter `k`, flushing when the next paragraph would overflow a
non-empty buffer, and a final flush of any non-blank remainder. -/
def chunkDocxGo (cfg : Cfg) (src : String) (images : List (String × String))
    (links : List String) : List String → String → Nat → List Chunk
  | [], current, k =>
    if pyStrip current = "" then []
    else [docxChunk src images links k (pyStrip current)]
  | para :: rest, current, k =>
    if current.length + para.length > cfg.maxSize ∧ current ≠ "" then
      docxChunk src images links k (pyStrip current) ::
        chunkDocxGo cfg src images links rest (para ++ "\n") (k + 1)
    else chunkDocxGo cfg src images links rest (current ++ para ++ "\n") k

/-- `SmartDocumentChunker._chunk_docx`. -/
def chunkDocx (cfg : Cfg) (text src : String)
    (images : List (String × String)) (links : List String) : List Chunk :=
  chunkDocxGo cfg src images links (docxParagraphs text) "" 0

/-- `SmartDocumentChunker._chunk_txt` (its metadata carries no image or
link keys). -/
def chunkTxt (cfg : Cfg) (text src : String) : List Chunk :=
  let pieces := splitText cfg text
  pieces.enum.map
    (fun ic =>
      { content := ic.2, source := src,
        chunkId := "txt_chunk_" ++ natRepr ic.1, docType := "txt",
        totalChunks := some pieces.length })

/-- `SmartDocumentChunker._chunk_default`. -/
def chunkDefault (cfg : Cfg) (text src : String)
    (images : List (String × String)) (links : List String) : List Chunk :=
  let pieces := splitText cfg text
  pieces.enum.map
    (fun ic =>
      { content := ic.2, source := src, chunkId := "chunk_" ++ natRepr ic.1,
        docType := "unknown", totalChunks := some pieces.length,
        images := some images, links := some links })

/-- Extension used for dispatch: `file_path.lower().split('.')[-1]`. -/
def lastExt (p : String) : String := (pySplit (pyLower p) ".").getLastD ""

/-- `SmartDocumentChunker.chunk_document`: dispatch on the extension. -/
def chunkDocument (cfg : Cfg) (text path : String)
    (images : List (String × String)) (links : List String) :
    Except String (List Chunk) :=
  let ext := lastExt path
  if ext = "pdf" then chunkPdf cfg text path images links
  else if ext = "docx" then .ok (chunkDocx cfg text path images links)
  else if ext = "pptx" then chunkPptx cfg text path images links
  else if ext = "txt" then .ok (chunkTxt cfg text path)
  else .ok (chunkDefault cfg text path images links)

/-- Header entry of `extract_headers_and_structure`. -/
structure HeaderEntry where
  text : String
  lineNumber : Nat
  level : Nat
deriving DecidableEq

/-- List entry of `extract_headers_and_structure`. -/
structure ListEntry where
  text : String
  lineNumber : Nat
  kind : String
deriving DecidableEq

/-- Result of `extract_headers_and_structure`; `tables` and `sections` are
never filled by the source. -/
structure DocStructure where
  headers : List HeaderEntry
  lists : List ListEntry
  tables : List String
  sections : List String
deriving DecidableEq

/-- ASCII uppercase letter. -/
def isAsciiUpper (c : Char) : Bool := 'A' ≤ c && c ≤ 'Z'

/-- ASCII lowercase letter. -/
def isAsciiLower (c : Char) : Bool := 'a' ≤ c && c ≤ 'z'

/-- Python `line.isupper()` (ASCII model): at least one cased character and
no lowercase character. -/
def pyIsUpper (l : List Char) : Bool := l.any isAsciiUpper && !(l.any isAsciiLower)

/-- Python `re.match(r'^#+\s', line)` as a Boolean. -/
def matchHash (l : List Char) : Bool :=
  match l with
  | '#' :: _ =>
    match l.dropWhile (· == '#') with
    | c :: _ => isPySpace c
    | [] => false
  | _ => false

/-- Python `re.match(r'^\d+\.?\s+[A-Z]', line)` when `needUpper` is true,
and `re.match(r'^\d+\.?\s+', line)` when it is false, as Booleans.  The
greedy scan is equivalent to the regex: giving back a digit or the optional
dot can never turn a failure of `\s+` into a success. -/
def matchNumThen (needUpper : Bool) (l : List Char) : Bool :=
  let ds := l.takeWhile Char.isDigit
  let r1 := l.dropWhile Char.isDigit
  if ds == [] then false
  else
    let r2 := match r1 with | '.' :: t => t | _ => r1
    let ws := r2.takeWhile isPySpace
    let r3 := r2.dropWhile isPySpace
    if ws == [] then false
    else
      match needUpper, r3 with
      | false, _ => true
      | true, c :: _ => isAsciiUpper c
      | true, [] => false

/-- Python `re.match(r'^[\*\-\+]\s+', line)` as a Boolean. -/
def matchBullet (l : List Char) : Bool :=
  match l with
  | c :: rest =>
    (c == '*' || c == '-' || c == '+') &&
      (match rest with | d :: _ => isPySpace d | [] => false)
  | [] => false

/-- Header condition of the analyzer loop:
`line and (line.isupper() or ^#+\s or ^\d+\.?\s+[A-Z])`. -/
def headerTest (l : List Char) : Bool :=
  !(l == []) && (pyIsUpper l || matchHash l || matchNumThen true l)

/-- List condition of the analyzer loop: `^[\*\-\+]\s+ or ^\d+\.?\s+`. -/
def listTest (l : List Char) : Bool := matchBullet l || matchNumThen false l

/-- `SmartDocumentChunker._estimate_header_level`. -/
def estimateHeaderLevel (t : String) : Nat :=
  if startsWithChars "###".data t.data then 3
  else if startsWithChars "##".data t.data then 2
  else if startsWithChars "#".data t.data then 1
  else if pyIsUpper t.data then 1
  else if matchNumThen false t.data then 2
  else 3

/-- List entry type: `'bullet' if line.startswith(('*', '-', '+')) else
'numbered'`. -/
def listKind (l : List Char) : String :=
  match l with
  | c :: _ => if c == '*' || c == '-' || c == '+' then "bullet" else "numbered"
  | [] => "numbered"

/-- One iteration of the analyzer loop: the header check and the list check
are two independent `if` statements on the stripped line. -/
def extractStep (st : DocStructure) (il : Nat × String) : DocStructure :=
  let line := pyStrip il.2
  let st1 :=
    if headerTest line.data then
      { st with headers := st.headers ++
          [{ text := line, lineNumber := il.1,
             level := estimateHeaderLevel line }] }
    else st
  if listTest line.data then
    { st1 with lists := st1.lists ++
        [{ text := line, lineNumber := il.1, kind := listKind line.data }] }
  else st1

/-- `SmartDocumentChunker.extract_headers_and_structure`. -/
def extractHeadersAndStructure (text : String) : DocStructure :=
  (pySplit text "\n").enum.foldl extractStep
    { headers := [], lists := [], tables := [], sections := [] }

/-- Labels of the retained parts of an enumerated split, in order (`none`
marks a label whose `int(...)` parse fails). -/
def segLabelsGo (l : List (Nat × String)) : List (Option Int) :=
  l.filterMap
    (fun ip => if pyStrip ip.2 = "" then none else some (segLabel ip.1 ip.2))

/-- Labels of the retained pdf segments, in order. -/
def pdfSegLabels (text : String) : List (Option Int) :=
  segLabelsGo (pySplit text "--- Page ").enum

/-- Labels of the retained pptx parts, in order. -/
def pptxSegLabels (text : String) : List (Option Int) :=
  segLabelsGo (pySplit text "--- Slide ").enum

/-- Structure-segmenter view of a pdf document: the retained enumerated
parts as `(label, body)` pairs, failing like the chunker does on an
unparsable label. -/
def pdfSegmentsGo : List (Nat × String) → Except String (List (Int × String))
  | [] => .ok []
  | (i, pc) :: rest =>
    if pyStrip pc = "" then pdfSegmentsGo rest
    else
      match segLabel i pc with
      | none => .error "ValueError: invalid literal for int() with base 10"
      | some n =>
        match pdfSegmentsGo rest with
        | .error e => .error e
        | .ok ss => .ok ((n, afterMarker "---\n" pc) :: ss)

/-- Structure segmenter for pdf text. -/
def pdfSegments (text : String) : Except String (List (Int × String)) :=
  pdfSegmentsGo (pySplit text "--- Page ").enum

/-- Structure segmenter for pptx text. -/
def pptxSegments (text : String) : Except String (List (Int × String)) :=
  pdfSegmentsGo (pySplit text "--- Slide ").enum

/-- Header entry produced for one enumerated raw line, if any. -/
def headerEntryOf (il : Nat × String) : Option HeaderEntry :=
  let line := pyStrip il.2
  if headerTest line.data then
    some { text := line, lineNumber := il.1, level := estimateHeaderLevel line }
  else none

/-- List entry produced for one enumerated raw line, if any. -/
def listEntryOf (il : Nat × String) : Option ListEntry :=
  let line := pyStrip il.2
  if listTest line.data then
    some { text := line, lineNumber := il.1, kind := listKind line.data }
  else none

/-- Input of the spec's Scenario 3: two short paragraphs followed by 1200
characters `x` with no internal line break. -/
def c6Text : String := "Para one.\nPara two.\n" ++ ⟨List.replicate 1200 'x'⟩

deriving instance DecidableEq for Except

/-! ## Helper lemmas: trimming -/

theorem trimChars_length_le (l : List Char) : (trimChars l).length ≤ l.length := by
  unfold trimChars
  calc ((l.dropWhile isPySpace).reverse.dropWhile isPySpace).reverse.length
      = ((l.dropWhile isPySpace).reverse.dropWhile isPySpace).length :=
        List.length_reverse _
    _ ≤ (l.dropWhile isPySpace).reverse.length :=
        (List.dropWhile_sublist _).length_le
    _ = (l.dropWhile isPySpace).length := List.length_reverse _
    _ ≤ l.length := (List.dropWhile_sublist _).length_le

theorem dropWhile_has_content {p : Char → Bool} :
    ∀ {l : List Char}, List.dropWhile p l ≠ [] →
      ∃ c ∈ List.dropWhile p l, p c = false := by
  intro l
  induction l with
  | nil => intro h; simp at h
  | cons c rest ih =>
    intro h
    rw [List.dropWhile_cons] at h ⊢
    by_cases hc : p c = true
    · simp only [hc, if_true] at h ⊢
      exact ih h
    · simp only [hc, if_false]
      exact ⟨c, List.mem_cons_self _ _, Bool.eq_false_iff.mpr hc⟩

theorem trim_has_content {l : List Char} (h : trimChars l ≠ []) :
    ∃ c ∈ trimChars l, isPySpace c = false := by
  unfold trimChars at h ⊢
  have h2 : ((l.dropWhile isPySpace).reverse.dropWhile isPySpace) ≠ [] := by
    intro he; rw [he] at h; simp at h
  obtain ⟨c, hc, hp⟩ := dropWhile_has_content h2
  exact ⟨c, List.mem_reverse.mpr hc, hp⟩

theorem content_trim_ne {l : List Char} {c : Char} (hc : c ∈ l)
    (hp : isPySpace c = false) : trimChars l ≠ [] := by
  intro h
  unfold trimChars at h
  have h2 : ((l.dropWhile isPySpace).reverse.dropWhile isPySpace) = [] := by
    have := congrArg List.reverse h
    simpa using this
  rw [List.dropWhile_eq_nil_iff] at h2
  have hall : ∀ x ∈ l, isPySpace x = true := by
    intro x hx
    rw [← List.takeWhile_append_dropWhile isPySpace l] at hx
    rcases List.mem_append.mp hx with h3 | h3
    · exact List.mem_takeWhile_imp h3
    · exact h2 x (List.mem_reverse.mpr h3)
  rw [hall c hc] at hp
  exact Bool.true_eq_false.mp hp

theorem trim_of_mk_eq (s : String) : pyStrip s = ⟨trimChars s.data⟩ := rfl

/-! ## Helper lemmas: the Size-Bounded Splitter model -/

theorem lastCut_bounds {pred : Char → Bool} {l : List Char} :
    ∀ {k j : Nat}, lastCut pred l k = some j → 1 ≤ j ∧ j ≤ k := by
  intro k
  induction k with
  | zero => intro j h; simp [lastCut] at h
  | succ k ih =>
    intro j h
    unfold lastCut at h
    cases hg : l.get? k with
    | none =>
      rw [hg] at h
      obtain ⟨h1, h2⟩ := ih h
      exact ⟨h1, Nat.le_succ_of_le h2⟩
    | some c =>
      rw [hg] at h
      by_cases hp : pred c = true
      · simp only [hp, if_true] at h
        cases h
        exact ⟨Nat.succ_le_succ (Nat.zero_le _), Nat.le_refl _⟩
      · simp only [hp, if_false] at h
        obtain ⟨h1, h2⟩ := ih h
        exact ⟨h1, Nat.le_succ_of_le h2⟩

theorem findCut_le (m : Nat) (l : List Char) : findCut m l ≤ m := by
  unfold findCut
  cases h1 : lastCut (fun c => c == '\n') l m with
  | some j => exact (lastCut_bounds h1).2
  | none =>
    cases h2 : lastCut (fun c => c == ' ') l m with
    | some j => exact (lastCut_bounds h2).2
    | none => exact Nat.le_refl m

theorem splitCharsF_mem {m o : Nat} :
    ∀ (fuel : Nat) (l p : List Char), p ∈ splitCharsF m o fuel l →
      p.length ≤ m ∧ ∃ c ∈ p, isPySpace c = false := by
  intro fuel
  induction fuel with
  | zero => intro l p h; simp [splitCharsF] at h
  | succ fuel ih =>
    intro l p h
    unfold splitCharsF at h
    by_cases hlen : l.length ≤ m
    · simp only [hlen, if_true] at h
      by_cases htr : (trimChars l == []) = true
      · simp only [htr, if_true] at h; simp at h
      · simp only [htr, if_false] at h
        rcases List.mem_singleton.mp h with rfl
        have hne : trimChars l ≠ [] := by
          intro he; rw [he] at htr; simp at htr
        exact ⟨Nat.le_trans (trimChars_length_le l) hlen, trim_has_content hne⟩
    · simp only [hlen, if_false] at h
      by_cases hp : (trimChars (l.take (findCut m l)) == []) = true
      · simp only [hp, if_true] at h
        exact ih _ p h
      · simp only [hp, if_false] at h
        rcases List.mem_cons.mp h with rfl | h2
        · constructor
          · calc (trimChars (l.take (findCut m l))).length
                ≤ (l.take (findCut m l)).length := trimChars_length_le _
              _ ≤ findCut m l := by
                  rw [List.length_take]; exact Nat.min_le_left _ _
              _ ≤ m := findCut_le m l
          · have hne : trimChars (l.take (findCut m l)) ≠ [] := by
              intro he; rw [he] at hp; simp at hp
            exact trim_has_content hne
        · exact ih _ p h2

theorem splitText_mem {cfg : Cfg} {s p : String} (h : p ∈ splitText cfg s) :
    p.length ≤ cfg.maxSize ∧ ∃ c ∈ p.data, isPySpace c = false := by
  unfold splitText splitChars at h
  obtain ⟨l, hl, rfl⟩ := List.mem_map.mp h
  exact splitCharsF_mem _ _ _ hl

theorem splitText_empty (cfg : Cfg) : splitText cfg "" = [] := by
  have hd : ("" : String).data = [] := rfl
  unfold splitText splitChars
  rw [hd]
  unfold splitCharsF
  simp [trimChars]

/-! ## Helper lemmas: decimal representations -/

theorem strExt {a b : String} (h : a.data = b.data) : a = b :=
  congrArg String.mk h

theorem digitVal_digitChar {k : Nat} (h : k < 10) : digitVal (digitChar k) = k := by
  interval_cases k <;> rfl

theorem digitChar_isDigit (k : Nat) : (digitChar k).isDigit = true := by
  unfold digitChar
  rcases k with _|_|_|_|_|_|_|_|_|k <;> rfl

theorem natDigitsF_ne_nil {fuel n : Nat} (h : 0 < fuel) :
    natDigitsF fuel n ≠ [] := by
  cases fuel with
  | zero => omega
  | succ f => unfold natDigitsF; split <;> simp

theorem natDigitsF_digits :
    ∀ fuel n, ∀ c ∈ natDigitsF fuel n, c.isDigit = true := by
  intro fuel
  induction fuel with
  | zero => intro n c hc; simp [natDigitsF] at hc
  | succ f ih =>
    intro n c hc
    unfold natDigitsF at hc
    by_cases h : n < 10
    · simp only [h, if_true] at hc
      rcases List.mem_singleton.mp hc with rfl
      exact digitChar_isDigit n
    · simp only [h, if_false] at hc
      rcases List.mem_append.mp hc with h2 | h2
      · exact ih _ c h2
      · rcases List.mem_singleton.mp h2 with rfl
        exact digitChar_isDigit _

theorem readDigits_append (l : List Char) (c : Char) :
    readDigits (l ++ [c]) = 10 * readDigits l + digitVal c := by
  unfold readDigits
  rw [List.foldl_append]
  rfl

theorem readDigits_natDigitsF :
    ∀ fuel n, n < fuel → readDigits (natDigitsF fuel n) = n := by
  intro fuel
  induction fuel with
  | zero => omega
  | succ f ih =>
    intro n hn
    unfold natDigitsF
    by_cases h : n < 10
    · simp only [h, if_true]
      show readDigits [digitChar n] = n
      unfold readDigits
      simp [List.foldl_cons, digitVal_digitChar h]
    · simp only [h, if_false]
      rw [readDigits_append]
      have hdiv : n / 10 < f := by omega
      rw [ih _ hdiv, digitVal_digitChar (Nat.mod_lt _ (by norm_num))]
      omega

theorem natRepr_inj {m n : Nat} (h : natRepr m = natRepr n) : m = n := by
  have hd : natDigitsF (m + 1) m = natDigitsF (n + 1) n := congrArg String.data h
  have h2 := congrArg readDigits hd
  rwa [readDigits_natDigitsF _ _ (Nat.lt_succ_self m),
       readDigits_natDigitsF _ _ (Nat.lt_succ_self n)] at h2

theorem natRepr_chars {n : Nat} {c : Char} (hc : c ∈ (natRepr n).data) :
    c.isDigit = true :=
  natDigitsF_digits _ _ c hc

theorem intRepr_chars {n : Int} {c : Char} (hc : c ∈ (intRepr n).data) :
    c.isDigit = true ∨ c = '-' := by
  unfold intRepr at hc
  by_cases h : n < 0
  · simp only [h, if_true] at hc
    rw [String.data_append] at hc
    rcases List.mem_append.mp hc with h2 | h2
    · right; simpa using h2
    · left; exact natDigitsF_digits _ _ c h2
  · simp only [h, if_false] at hc
    left; exact natDigitsF_digits _ _ c hc

theorem intRepr_inj {m n : Int} (h : intRepr m = intRepr n) : m = n := by
  have hneg : ∀ a b : Int, a < 0 → ¬ b < 0 →
      ("-" ++ natRepr a.natAbs ≠ natRepr b.toNat) := by
    intro a b _ _ he
    have hd := congrArg String.data he
    rw [String.data_append] at hd
    cases hnd : natDigitsF (b.toNat + 1) b.toNat with
    | nil => exact natDigitsF_ne_nil (Nat.succ_pos _) hnd
    | cons c cs =>
      have hd2 : '-' :: (natRepr a.natAbs).data = c :: cs := hd.trans hnd
      have hc : c = '-' := by
        have := congrArg List.head? hd2
        simpa using this.symm
      have hdig : c.isDigit = true := by
        refine natDigitsF_digits (b.toNat + 1) b.toNat c ?_
        rw [hnd]; exact List.mem_cons_self _ _
      rw [hc] at hdig
      simp [Char.isDigit] at hdig
  unfold intRepr at h
  by_cases hm : m < 0 <;> by_cases hn : n < 0 <;>
    simp only [hm, hn, if_true, if_false] at h
  · have hd := congrArg String.data h
    rw [String.data_append, String.data_append] at hd
    have h2 : (natRepr m.natAbs).data = (natRepr n.natAbs).data :=
      List.append_cancel_left hd
    have h3 := natRepr_inj (strExt h2)
    omega
  · exact absurd h (hneg m n hm hn)
  · exact absurd h.symm (hneg n m hn hm)
  · have h3 := natRepr_inj h
    omega

/-! ## Helper lemmas: more trimming facts -/

theorem dropWhile_head_false {p : Char → Bool} :
    ∀ {l : List Char} {d : Char} {t : List Char},
      List.dropWhile p l = d :: t → p d = false := by
  intro l
  induction l with
  | nil => intro d t h; simp at h
  | cons c rest ih =>
    intro d t h
    rw [List.dropWhile_cons] at h
    by_cases hc : p c = true
    · rw [if_pos hc] at h; exact ih h
    · rw [if_neg hc] at h
      injection h with h1 _
      rw [← h1]
      exact Bool.eq_false_iff.mpr hc

theorem dropWhile_self {p : Char → Bool} {l : List Char} :
    List.dropWhile p (List.dropWhile p l) = List.dropWhile p l := by
  cases he : List.dropWhile p l with
  | nil => rfl
  | cons d t =>
    rw [List.dropWhile_cons, if_neg]
    rw [dropWhile_head_false he]
    simp

theorem trimChars_idem (l : List Char) : trimChars (trimChars l) = trimChars l := by
  by_cases hv0 : List.dropWhile isPySpace (List.dropWhile isPySpace l).reverse = []
  · unfold trimChars
    rw [hv0]
    rfl
  · unfold trimChars
    set u := List.dropWhile isPySpace l with hu
    set v := List.dropWhile isPySpace u.reverse with hv
    have hvr : v.reverse ≠ [] := by simpa [List.reverse_eq_nil_iff] using hv0
    cases hc : v.reverse with
    | nil => exact absurd hc hvr
    | cons c w =>
      have hune : u ≠ [] := by
        intro h
        rw [h] at hv
        simp at hv
        rw [hv] at hc
        simp at hc
      cases hud : u with
      | nil => exact absurd hud hune
      | cons d ut =>
        have hd : isPySpace d = false := dropWhile_head_false (hu.symm.trans hud)
        have hcd : c = d := by
          have h1 : v.reverse.head? = v.getLast? := List.head?_reverse v
          have h2 : v.getLast? = u.reverse.getLast? := by
            obtain ⟨pre, hpre⟩ := List.dropWhile_suffix (l := u.reverse) isPySpace
            rw [← hv] at hpre
            rw [← hpre, List.getLast?_append,
                List.getLast?_eq_getLast v (by intro h; rw [h] at hc; simp at hc)]
            rfl
          have h3 : u.reverse.getLast? = u.head? := by
            have h4 := List.head?_reverse u.reverse
            rw [List.reverse_reverse] at h4
            exact h4.symm
          have h5 : v.reverse.head? = u.head? := (h1.trans h2).trans h3
          rw [hc, hud] at h5
          simpa using h5
        have hspc : isPySpace c = false := by rw [hcd]; exact hd
        have hdw : List.dropWhile isPySpace (c :: w) = c :: w := by
          rw [List.dropWhile_cons, if_neg (by rw [hspc]; simp)]
        calc (List.dropWhile isPySpace (List.dropWhile isPySpace (c :: w)).reverse).reverse
            = (List.dropWhile isPySpace (c :: w).reverse).reverse := by rw [hdw]
          _ = (List.dropWhile isPySpace v).reverse := by rw [← hc, List.reverse_reverse]
          _ = v.reverse := by rw [hv, dropWhile_self, ← hv]
          _ = c :: w := hc

theorem dropWhile_append_left {p : Char → Bool} :
    ∀ {l : List Char} (m : List Char), List.dropWhile p l ≠ [] →
      List.dropWhile p (l ++ m) = List.dropWhile p l ++ m := by
  intro l
  induction l with
  | nil => intro m h; simp at h
  | cons x xs ih =>
    intro m h
    by_cases hx : p x = true
    · rw [List.cons_append, List.dropWhile_cons, if_pos hx,
         List.dropWhile_cons, if_pos hx]
      rw [List.dropWhile_cons, if_pos hx] at h
      exact ih m h
    · rw [List.cons_append, List.dropWhile_cons, if_neg hx,
         List.dropWhile_cons, if_neg hx, List.cons_append]

theorem trim_append_space {l : List Char} {c : Char} (hc : isPySpace c = true) :
    trimChars (l ++ [c]) = trimChars l := by
  unfold trimChars
  by_cases h0 : List.dropWhile isPySpace l = []
  · have hall : ∀ x ∈ l, isPySpace x = true := List.dropWhile_eq_nil_iff.mp h0
    have h1 : List.dropWhile isPySpace (l ++ [c]) = [] := by
      apply List.dropWhile_eq_nil_iff.mpr
      intro x hx
      rcases List.mem_append.mp hx with h | h
      · exact hall x h
      · rcases List.mem_singleton.mp h with rfl; exact hc
    rw [h0, h1]
  · rw [dropWhile_append_left [c] h0, List.reverse_append]
    simp [List.dropWhile_cons, hc]

/-! ## Helper lemmas: chunk-id disjointness -/

theorem numPrefixEq :
    ∀ (a b s t : List Char),
      (∀ c ∈ a, c.isDigit = true ∨ c = '-') →
      (∀ c ∈ b, c.isDigit = true ∨ c = '-') →
      (s = [] ∨ s.head? = some '_') →
      (t = [] ∨ t.head? = some '_') →
      a ++ s = b ++ t → a = b := by
  have main : ∀ (a s t : List Char) (k : List Char),
      (∀ c ∈ a ++ k, c.isDigit = true ∨ c = '-') →
      (s = [] ∨ s.head? = some '_') → s = k ++ t → a = a ++ k := by
    intro a s t k hk hs hseq
    cases k with
    | nil => simp
    | cons d ds =>
      exfalso
      have hd : d.isDigit = true ∨ d = '-' :=
        hk d (List.mem_append_right _ (List.mem_cons_self _ _))
      have hsh : s.head? = some '_' := by
        rcases hs with h | h
        · rw [h] at hseq; simp at hseq
        · exact h
      rw [hseq] at hsh
      simp at hsh
      rcases hd with h | h
      · rw [hsh] at h; simp [Char.isDigit] at h
      · rw [hsh] at h; exact absurd h (by decide)
  intro a b s t ha hb hs ht heq
  rcases List.append_eq_append_iff.mp heq with ⟨k, hk1, hk2⟩ | ⟨k, hk1, hk2⟩
  · rw [hk1]
    exact main a s t k (by rw [← hk1]; exact hb) hs hk2
  · rw [hk1]
    exact (main b t s k (by rw [← hk1]; exact ha) ht hk2).symm

theorem strCancelLeft {p a b : String} (h : p ++ a = p ++ b) : a = b := by
  have hd := congrArg String.data h
  rw [String.data_append, String.data_append] at hd
  exact strExt (List.append_cancel_left hd)

theorem wholeId_inj {pre : String} {n m : Int}
    (h : pre ++ intRepr n = pre ++ intRepr m) : n = m :=
  intRepr_inj (strCancelLeft h)

theorem pieceId_inj {pre : String} {n m : Int} {j j2 : Nat}
    (h : pre ++ intRepr n ++ "_chunk_" ++ natRepr j
       = pre ++ intRepr m ++ "_chunk_" ++ natRepr j2) : n = m ∧ j = j2 := by
  have hd := congrArg String.data h
  simp only [String.data_append, List.append_assoc] at hd
  have hd2 := List.append_cancel_left hd
  have hnm : (intRepr n).data = (intRepr m).data := by
    refine numPrefixEq _ _ _ _ ?_ ?_ ?_ ?_ hd2
    · intro c hc; exact intRepr_chars hc
    · intro c hc; exact intRepr_chars hc
    · right; rfl
    · right; rfl
  have hn : n = m := intRepr_inj (strExt hnm)
  refine ⟨hn, ?_⟩
  rw [hnm] at hd2
  have hd3 := List.append_cancel_left hd2
  have hd4 := List.append_cancel_left hd3
  exact natRepr_inj (strExt hd4)

theorem wholeId_ne_pieceId {pre : String} {n m : Int} {j : Nat} :
    pre ++ intRepr n ≠ pre ++ intRepr m ++ "_chunk_" ++ natRepr j := by
  intro h
  have hd := congrArg String.data h
  simp only [String.data_append, List.append_assoc] at hd
  have hd2 : (intRepr n).data ++ [] = (intRepr m).data ++
      ("_chunk_".data ++ (natRepr j).data) := by
    rw [List.append_nil]
    exact List.append_cancel_left hd
  have hnm : (intRepr n).data = (intRepr m).data := by
    refine numPrefixEq _ _ _ _ ?_ ?_ ?_ ?_ hd2
    · intro c hc; exact intRepr_chars hc
    · intro c hc; exact intRepr_chars hc
    · left; rfl
    · right; rfl
  rw [hnm] at hd2
  have hd3 := List.append_cancel_left hd2
  simp at hd3

theorem natTag_inj {pre : String} {i i2 : Nat}
    (h : pre ++ natRepr i = pre ++ natRepr i2) : i = i2 :=
  natRepr_inj (strCancelLeft h)

/-! ## Helper lemmas: enumeration -/

theorem mem_enumFrom_snd {α : Type} :
    ∀ {l : List α} {k : Nat} {p : Nat × α}, p ∈ List.enumFrom k l → p.2 ∈ l := by
  intro l
  induction l with
  | nil => intro k p h; simp at h
  | cons a as ih =>
    intro k p h
    rw [List.enumFrom_cons] at h
    rcases List.mem_cons.mp h with rfl | h2
    · exact List.mem_cons_self _ _
    · exact List.mem_cons_of_mem _ (ih h2)

theorem mem_enum_snd {α : Type} {l : List α} {p : Nat × α} (h : p ∈ l.enum) :
    p.2 ∈ l :=
  mem_enumFrom_snd h

theorem enum_fst_map_nodup {α β : Type} (f : Nat → β)
    (hf : Function.Injective f) (l : List α) :
    (l.enum.map (fun p => f p.1)).Nodup := by
  have h : l.enum.map (fun p => f p.1) = (List.range l.length).map f := by
    rw [← List.enum_map_fst l, List.map_map]; rfl
  rw [h]
  exact (List.nodup_range _).map hf

/-! ## Helper lemmas: the pdf and pptx loops -/

theorem segLabelsGo_cons_blank {i : Nat} {pc : String}
    {rest : List (Nat × String)} (h : pyStrip pc = "") :
    segLabelsGo ((i, pc) :: rest) = segLabelsGo rest := by
  unfold segLabelsGo
  exact List.filterMap_cons_none (by simp [h])

theorem segLabelsGo_cons_keep {i : Nat} {pc : String}
    {rest : List (Nat × String)} (h : ¬ pyStrip pc = "") :
    segLabelsGo ((i, pc) :: rest) = segLabel i pc :: segLabelsGo rest := by
  unfold segLabelsGo
  exact List.filterMap_cons_some (by simp [h])

theorem pdfGo_chunks {cfg : Cfg} {src : String} {imgs : List (String × String)}
    {lks : List String} {tp : Nat} :
    ∀ (l : List (Nat × String)) (cs : List Chunk),
      chunkPdfGo cfg src imgs lks tp l = .ok cs →
      ∀ c ∈ cs, c.docType = "pdf" ∧ c.links = some lks ∧
        c.content.length ≤ cfg.maxSize ∧
        ∃ n : Int, c.page = some n ∧
          c.images = some (imagesFor ("page" ++ intRepr n) imgs) := by
  intro l
  induction l with
  | nil =>
    intro cs h c hc
    unfold chunkPdfGo at h
    injection h with h
    rw [← h] at hc
    simp at hc
  | cons ip rest ih =>
    obtain ⟨i, pc⟩ := ip
    intro cs h c hc
    unfold chunkPdfGo at h
    by_cases hb : pyStrip pc = ""
    · rw [if_pos hb] at h
      exact ih cs h c hc
    · rw [if_neg hb] at h
      cases hl : segLabel i pc with
      | none => rw [hl] at h; exact absurd h (by simp)
      | some n =>
        rw [hl] at h
        cases hr : chunkPdfGo cfg src imgs lks tp rest with
        | error e => rw [hr] at h; exact absurd h (by simp)
        | ok cs2 =>
          rw [hr] at h
          injection h with h
          rw [← h] at hc
          rcases List.mem_append.mp hc with hcm | hcm
          · unfold pdfSegChunks at hcm
            by_cases hlen : (afterMarker "---\n" pc).length > cfg.maxSize
            · rw [if_pos hlen] at hcm
              obtain ⟨jc, hjc, rfl⟩ := List.mem_map.mp hcm
              refine ⟨rfl, rfl, ?_, n, rfl, rfl⟩
              have hmem : jc.2 ∈ splitText cfg (afterMarker "---\n" pc) :=
                mem_enum_snd hjc
              exact (splitText_mem hmem).1
            · rw [if_neg hlen] at hcm
              rcases List.mem_singleton.mp hcm with rfl
              exact ⟨rfl, rfl, Nat.not_lt.mp hlen, n, rfl, rfl⟩
          · exact ih cs2 hr c hcm

theorem pptxGo_chunks {cfg : Cfg} {src : String} {imgs : List (String × String)}
    {lks : List String} {ts : Nat} :
    ∀ (l : List (Nat × String)) (cs : List Chunk),
      chunkPptxGo cfg src imgs lks ts l = .ok cs →
      ∀ c ∈ cs, c.docType = "pptx" ∧ c.links = some lks ∧
        (∃ ch ∈ c.content.data, isPySpace ch = false) ∧
        ∃ n : Int, c.slide = some n ∧
          c.images = some (imagesFor ("slide" ++ intRepr n) imgs) := by
  intro l
  induction l with
  | nil =>
    intro cs h c hc
    unfold chunkPptxGo at h
    injection h with h
    rw [← h] at hc
    simp at hc
  | cons ip rest ih =>
    obtain ⟨i, sc⟩ := ip
    intro cs h c hc
    unfold chunkPptxGo at h
    by_cases hb : pyStrip sc = ""
    · rw [if_pos hb] at h
      exact ih cs h c hc
    · rw [if_neg hb] at h
      cases hl : segLabel i sc with
      | none => rw [hl] at h; exact absurd h (by simp)
      | some n =>
        rw [hl] at h
        cases hr : chunkPptxGo cfg src imgs lks ts rest with
        | error e => rw [hr] at h; exact absurd h (by simp)
        | ok cs2 =>
          rw [hr] at h
          injection h with h
          rw [← h] at hc
          rcases List.mem_append.mp hc with hcm | hcm
          · by_cases hbl : pyStrip (afterMarker "---\n" sc) = ""
            · rw [if_pos hbl] at hcm; simp at hcm
            · rw [if_neg hbl] at hcm
              rcases List.mem_singleton.mp hcm with rfl
              refine ⟨rfl, rfl, ?_, n, rfl, rfl⟩
              have hne : trimChars (afterMarker "---\n" sc).data ≠ [] := by
                intro he
                exact hbl (strExt he)
              exact trim_has_content hne
          · exact ih cs2 hr c hcm

theorem pageId_state_inj {pre : String} {n m : Int} {id : String}
    (h1 : id = pre ++ intRepr n ∨
      ∃ j, id = pre ++ intRepr n ++ "_chunk_" ++ natRepr j)
    (h2 : id = pre ++ intRepr m ∨
      ∃ j, id = pre ++ intRepr m ++ "_chunk_" ++ natRepr j) :
    n = m := by
  rcases h1 with rfl | ⟨j, rfl⟩
  · rcases h2 with h | ⟨j2, h⟩
    · exact wholeId_inj h
    · exact absurd h wholeId_ne_pieceId
  · rcases h2 with h | ⟨j2, h⟩
    · exact absurd h.symm wholeId_ne_pieceId
    · exact (pieceId_inj h).1

theorem pdfSegChunks_ids {cfg : Cfg} {src : String}
    {imgs : List (String × String)} {lks : List String} {tp : Nat}
    {n : Int} {body : String} :
    ((pdfSegChunks cfg src imgs lks tp n body).map (fun c => c.chunkId)).Nodup ∧
    ∀ id ∈ (pdfSegChunks cfg src imgs lks tp n body).map (fun c => c.chunkId),
      id = "page_" ++ intRepr n ∨
        ∃ j, id = "page_" ++ intRepr n ++ "_chunk_" ++ natRepr j := by
  unfold pdfSegChunks
  by_cases h : body.length > cfg.maxSize
  · rw [if_pos h]
    constructor
    · rw [List.map_map]
      exact enum_fst_map_nodup
        (fun j => "page_" ++ intRepr n ++ "_chunk_" ++ natRepr j)
        (fun a b hab => (pieceId_inj hab).2) _
    · intro id hid
      rw [List.map_map] at hid
      obtain ⟨jc, _, rfl⟩ := List.mem_map.mp hid
      right
      exact ⟨jc.1, rfl⟩
  · rw [if_neg h]
    constructor
    · simp
    · intro id hid
      rcases List.mem_singleton.mp hid with rfl
      left
      rfl

theorem pdfGo_ids_nodup {cfg : Cfg} {src : String}
    {imgs : List (String × String)} {lks : List String} {tp : Nat} :
    ∀ (l : List (Nat × String)) (cs : List Chunk),
      chunkPdfGo cfg src imgs lks tp l = .ok cs →
      (segLabelsGo l).Nodup →
      (cs.map (fun c => c.chunkId)).Nodup ∧
      ∀ id ∈ cs.map (fun c => c.chunkId),
        ∃ n : Int, some n ∈ segLabelsGo l ∧
          (id = "page_" ++ intRepr n ∨
            ∃ j, id = "page_" ++ intRepr n ++ "_chunk_" ++ natRepr j) := by
  intro l
  induction l with
  | nil =>
    intro cs h _
    unfold chunkPdfGo at h
    injection h with h
    rw [← h]
    exact ⟨List.nodup_nil, by simp⟩
  | cons ip rest ih =>
    obtain ⟨i, pc⟩ := ip
    intro cs h hnd
    unfold chunkPdfGo at h
    by_cases hb : pyStrip pc = ""
    · rw [if_pos hb] at h
      rw [segLabelsGo_cons_blank hb] at hnd ⊢
      exact ih cs h hnd
    · rw [if_neg hb] at h
      rw [segLabelsGo_cons_keep hb] at hnd ⊢
      cases hl : segLabel i pc with
      | none => rw [hl] at h; exact absurd h (by simp)
      | some n =>
        rw [hl] at h hnd
        cases hr : chunkPdfGo cfg src imgs lks tp rest with
        | error e => rw [hr] at h; exact absurd h (by simp)
        | ok cs2 =>
          rw [hr] at h
          injection h with h
          rw [← h]
          rw [List.nodup_cons] at hnd
          obtain ⟨hn1, hn2⟩ := hnd
          obtain ⟨ih1, ih2⟩ := ih cs2 hr hn2
          constructor
          · rw [List.map_append]
            refine List.Nodup.append pdfSegChunks_ids.1 ih1 ?_
            rw [List.disjoint_left]
            intro id hida hidb
            obtain ⟨m, hm, hshape2⟩ := ih2 id hidb
            have hshape1 := pdfSegChunks_ids.2 id hida
            have hnm : n = m := pageId_state_inj hshape1 hshape2
            rw [← hnm] at hm
            exact hn1 hm
          · intro id hid
            rw [List.map_append] at hid
            rcases List.mem_append.mp hid with hm | hm
            · exact ⟨n, List.mem_cons_self _ _, pdfSegChunks_ids.2 id hm⟩
            · obtain ⟨m, hmm, hs⟩ := ih2 id hm
              exact ⟨m, List.mem_cons_of_mem _ hmm, hs⟩

theorem pptxGo_ids_nodup {cfg : Cfg} {src : String}
    {imgs : List (String × String)} {lks : List String} {ts : Nat} :
    ∀ (l : List (Nat × String)) (cs : List Chunk),
      chunkPptxGo cfg src imgs lks ts l = .ok cs →
      (segLabelsGo l).Nodup →
      (cs.map (fun c => c.chunkId)).Nodup ∧
      ∀ id ∈ cs.map (fun c => c.chunkId),
        ∃ n : Int, some n ∈ segLabelsGo l ∧ id = "slide_" ++ intRepr n := by
  intro l
  induction l with
  | nil =>
    intro cs h _
    unfold chunkPptxGo at h
    injection h with h
    rw [← h]
    exact ⟨List.nodup_nil, by simp⟩
  | cons ip rest ih =>
    obtain ⟨i, sc⟩ := ip
    intro cs h hnd
    unfold chunkPptxGo at h
    by_cases hb : pyStrip sc = ""
    · rw [if_pos hb] at h
      rw [segLabelsGo_cons_blank hb] at hnd ⊢
      exact ih cs h hnd
    · rw [if_neg hb] at h
      rw [segLabelsGo_cons_keep hb] at hnd ⊢
      cases hl : segLabel i sc with
      | none => rw [hl] at h; exact absurd h (by simp)
      | some n =>
        rw [hl] at h hnd
        cases hr : chunkPptxGo cfg src imgs lks ts rest with
        | error e => rw [hr] at h; exact absurd h (by simp)
        | ok cs2 =>
          rw [hr] at h
          injection h with h
          rw [← h]
          rw [List.nodup_cons] at hnd
          obtain ⟨hn1, hn2⟩ := hnd
          obtain ⟨ih1, ih2⟩ := ih cs2 hr hn2
          have hgrp : ∀ id ∈ ((if pyStrip (afterMarker "---\n" sc) = "" then []
              else [pptxChunk src imgs lks ts n
                (afterMarker "---\n" sc)]).map (fun c => c.chunkId)),
              id = "slide_" ++ intRepr n := by
            intro id hid
            by_cases hbl : pyStrip (afterMarker "---\n" sc) = ""
            · rw [if_pos hbl] at hid; simp at hid
            · rw [if_neg hbl] at hid
              rcases List.mem_singleton.mp hid with rfl
              rfl
          constructor
          · rw [List.map_append]
            refine List.Nodup.append ?_ ih1 ?_
            · by_cases hbl : pyStrip (afterMarker "---\n" sc) = "" <;>
                simp [hbl]
            · rw [List.disjoint_left]
              intro id hida hidb
              obtain ⟨m, hm, hshape2⟩ := ih2 id hidb
              have hshape1 := hgrp id hida
              have hnm : n = m := wholeId_inj (hshape1.symm.trans hshape2)
              rw [← hnm] at hm
              exact hn1 hm
          · intro id hid
            rw [List.map_append] at hid
            rcases List.mem_append.mp hid with hm | hm
            · exact ⟨n, List.mem_cons_self _ _, hgrp id hm⟩
            · obtain ⟨m, hmm, hs⟩ := ih2 id hm
              exact ⟨m, List.mem_cons_of_mem _ hmm, hs⟩

theorem pdfGo_decomp {cfg : Cfg} {src : String} {imgs : List (String × String)}
    {lks : List String} {tp : Nat} :
    ∀ l : List (Nat × String),
      chunkPdfGo cfg src imgs lks tp l =
        (pdfSegmentsGo l).map
          (fun segs => segs.bind
            (fun nb => pdfSegChunks cfg src imgs lks tp nb.1 nb.2)) := by
  intro l
  induction l with
  | nil => rfl
  | cons ip rest ih =>
    obtain ⟨i, pc⟩ := ip
    unfold chunkPdfGo pdfSegmentsGo
    by_cases hb : pyStrip pc = ""
    · rw [if_pos hb, if_pos hb]
      exact ih
    · rw [if_neg hb, if_neg hb]
      cases hl : segLabel i pc with
      | none => rfl
      | some n =>
        rw [ih]
        cases hr : pdfSegmentsGo rest with
        | error e => rfl
        | ok ss => simp [Except.map, List.cons_bind]

theorem pptxGo_decomp {cfg : Cfg} {src : String}
    {imgs : List (String × String)} {lks : List String} {ts : Nat} :
    ∀ l : List (Nat × String),
      chunkPptxGo cfg src imgs lks ts l =
        (pdfSegmentsGo l).map
          (fun segs => segs.bind
            (fun nb => if pyStrip nb.2 = "" then []
              else [pptxChunk src imgs lks ts nb.1 nb.2])) := by
  intro l
  induction l with
  | nil => rfl
  | cons ip rest ih =>
    obtain ⟨i, sc⟩ := ip
    unfold chunkPptxGo pdfSegmentsGo
    by_cases hb : pyStrip sc = ""
    · rw [if_pos hb, if_pos hb]
      exact ih
    · rw [if_neg hb, if_neg hb]
      cases hl : segLabel i sc with
      | none => rfl
      | some n =>
        rw [ih]
        cases hr : pdfSegmentsGo rest with
        | error e => rfl
        | ok ss => simp [Except.map, List.cons_bind]

theorem pdfGo_ok_iff {cfg : Cfg} {src : String} {imgs : List (String × String)}
    {lks : List String} {tp : Nat} :
    ∀ l : List (Nat × String),
      (∃ cs, chunkPdfGo cfg src imgs lks tp l = .ok cs) ↔
        ∀ lab ∈ segLabelsGo l, lab.isSome = true := by
  intro l
  induction l with
  | nil =>
    constructor
    · intro _ lab hlab
      unfold segLabelsGo at hlab
      simp at hlab
    · intro _
      exact ⟨[], rfl⟩
  | cons ip rest ih =>
    obtain ⟨i, pc⟩ := ip
    by_cases hb : pyStrip pc = ""
    · rw [segLabelsGo_cons_blank hb]
      constructor
      · intro ⟨cs, h⟩
        unfold chunkPdfGo at h
        rw [if_pos hb] at h
        exact ih.mp ⟨cs, h⟩
      · intro h
        obtain ⟨cs, hcs⟩ := ih.mpr h
        refine ⟨cs, ?_⟩
        unfold chunkPdfGo
        rw [if_pos hb]
        exact hcs
    · rw [segLabelsGo_cons_keep hb]
      constructor
      · intro ⟨cs, h⟩
        unfold chunkPdfGo at h
        rw [if_neg hb] at h
        cases hl : segLabel i pc with
        | none => rw [hl] at h; exact absurd h (by simp)
        | some n =>
          rw [hl] at h
          intro lab hlab
          rcases List.mem_cons.mp hlab with rfl | hlab2
          · rfl
          · cases hr : chunkPdfGo cfg src imgs lks tp rest with
            | error e => rw [hr] at h; exact absurd h (by simp)
            | ok cs2 => exact ih.mp ⟨cs2, hr⟩ lab hlab2
      · intro h
        have hl : (segLabel i pc).isSome = true := h _ (List.mem_cons_self _ _)
        obtain ⟨n, hn⟩ := Option.isSome_iff_exists.mp hl
        obtain ⟨cs2, hcs2⟩ := ih.mpr (fun lab hlab =>
          h lab (List.mem_cons_of_mem _ hlab))
        refine ⟨pdfSegChunks cfg src imgs lks tp n (afterMarker "---\n" pc)
          ++ cs2, ?_⟩
        unfold chunkPdfGo
        rw [if_neg hb, hn, hcs2]

theorem pptxGo_ok_iff {cfg : Cfg} {src : String}
    {imgs : List (String × String)} {lks : List String} {ts : Nat} :
    ∀ l : List (Nat × String),
      (∃ cs, chunkPptxGo cfg src imgs lks ts l = .ok cs) ↔
        ∀ lab ∈ segLabelsGo l, lab.isSome = true := by
  intro l
  induction l with
  | nil =>
    constructor
    · intro _ lab hlab
      unfold segLabelsGo at hlab
      simp at hlab
    · intro _
      exact ⟨[], rfl⟩
  | cons ip rest ih =>
    obtain ⟨i, sc⟩ := ip
    by_cases hb : pyStrip sc = ""
    · rw [segLabelsGo_cons_blank hb]
      constructor
      · intro ⟨cs, h⟩
        unfold chunkPptxGo at h
        rw [if_pos hb] at h
        exact ih.mp ⟨cs, h⟩
      · intro h
        obtain ⟨cs, hcs⟩ := ih.mpr h
        refine ⟨cs, ?_⟩
        unfold chunkPptxGo
        rw [if_pos hb]
        exact hcs
    · rw [segLabelsGo_cons_keep hb]
      constructor
      · intro ⟨cs, h⟩
        unfold chunkPptxGo at h
        rw [if_neg hb] at h
        cases hl : segLabel i sc with
        | none => rw [hl] at h; exact absurd h (by simp)
        | some n =>
          rw [hl] at h
          intro lab hlab
          rcases List.mem_cons.mp hlab with rfl | hlab2
          · rfl
          · cases hr : chunkPptxGo cfg src imgs lks ts rest with
            | error e => rw [hr] at h; exact absurd h (by simp)
            | ok cs2 => exact ih.mp ⟨cs2, hr⟩ lab hlab2
      · intro h
        have hl : (segLabel i sc).isSome = true := h _ (List.mem_cons_self _ _)
        obtain ⟨n, hn⟩ := Option.isSome_iff_exists.mp hl
        obtain ⟨cs2, hcs2⟩ := ih.mpr (fun lab hlab =>
          h lab (List.mem_cons_of_mem _ hlab))
        refine ⟨(if pyStrip (afterMarker "---\n" sc) = "" then []
          else [pptxChunk src imgs lks ts n (afterMarker "---\n" sc)])
          ++ cs2, ?_⟩
        unfold chunkPptxGo
        rw [if_neg hb, hn, hcs2]

/-! ## Helper lemmas: the docx loop -/

theorem dropWhile_all_false {p : Char → Bool} {l : List Char}
    (h : ∀ x ∈ l, p x = false) : List.dropWhile p l = l := by
  cases l with
  | nil => rfl
  | cons x xs =>
    rw [List.dropWhile_cons, if_neg]
    rw [h x (List.mem_cons_self _ _)]
    simp

theorem trim_all_nonspace {l : List Char}
    (h : ∀ x ∈ l, isPySpace x = false) : trimChars l = l := by
  unfold trimChars
  rw [dropWhile_all_false h,
      dropWhile_all_false (fun x hx => h x (List.mem_reverse.mp hx)),
      List.reverse_reverse]

theorem docxParagraphs_spec {text : String} :
    ∀ p ∈ docxParagraphs text,
      trimChars p.data = p.data ∧ ∃ ch ∈ p.data, isPySpace ch = false := by
  intro p hp
  unfold docxParagraphs at hp
  obtain ⟨raw, _, hraw⟩ := List.mem_filterMap.mp hp
  by_cases hb : pyStrip raw = ""
  · rw [if_pos hb] at hraw
    exact absurd hraw (by simp)
  · rw [if_neg hb] at hraw
    injection hraw with hraw
    rw [← hraw]
    constructor
    · exact trimChars_idem raw.data
    · have hne : trimChars raw.data ≠ [] := by
        intro he
        exact hb (strExt he)
      exact trim_has_content hne

theorem docxGo_ids {cfg : Cfg} {src : String} {imgs : List (String × String)}
    {lks : List String} :
    ∀ (paras : List String) (current : String) (k : Nat),
      ∃ m, (chunkDocxGo cfg src imgs lks paras current k).map (fun c => c.chunkId)
        = (List.range' k m).map (fun j => "docx_chunk_" ++ natRepr j) := by
  intro paras
  induction paras with
  | nil =>
    intro current k
    unfold chunkDocxGo
    by_cases hb : pyStrip current = ""
    · rw [if_pos hb]
      exact ⟨0, rfl⟩
    · rw [if_neg hb]
      exact ⟨1, rfl⟩
  | cons para rest ih =>
    intro current k
    unfold chunkDocxGo
    by_cases hc : current.length + para.length > cfg.maxSize ∧ current ≠ ""
    · rw [if_pos hc]
      obtain ⟨m, hm⟩ := ih (para ++ "\n") (k + 1)
      refine ⟨m + 1, ?_⟩
      rw [List.map_cons, hm, List.range'_succ]
      rfl
    · rw [if_neg hc]
      exact ih _ k

theorem docxGo_nonblank {cfg : Cfg} {src : String}
    {imgs : List (String × String)} {lks : List String} :
    ∀ (paras : List String) (current : String) (k : Nat),
      (∀ p ∈ paras, ∃ ch ∈ p.data, isPySpace ch = false) →
      (current = "" ∨ ∃ ch ∈ current.data, isPySpace ch = false) →
      ∀ c ∈ chunkDocxGo cfg src imgs lks paras current k,
        ∃ ch ∈ c.content.data, isPySpace ch = false := by
  intro paras
  induction paras with
  | nil =>
    intro current k _ _ c hc
    unfold chunkDocxGo at hc
    by_cases hb : pyStrip current = ""
    · rw [if_pos hb] at hc
      simp at hc
    · rw [if_neg hb] at hc
      rcases List.mem_singleton.mp hc with rfl
      have hne : trimChars current.data ≠ [] := fun he => hb (strExt he)
      exact trim_has_content hne
  | cons para rest ih =>
    intro current k hps hcur c hc
    have hpara : ∃ ch ∈ para.data, isPySpace ch = false :=
      hps para (List.mem_cons_self _ _)
    have hps2 : ∀ p ∈ rest, ∃ ch ∈ p.data, isPySpace ch = false :=
      fun p hp => hps p (List.mem_cons_of_mem _ hp)
    unfold chunkDocxGo at hc
    by_cases hcond : current.length + para.length > cfg.maxSize ∧ current ≠ ""
    · rw [if_pos hcond] at hc
      rcases List.mem_cons.mp hc with rfl | hc2
      · rcases hcur with rfl | ⟨ch, hch, hsp⟩
        · exact absurd rfl hcond.2
        · have hne : trimChars current.data ≠ [] := content_trim_ne hch hsp
          exact trim_has_content hne
      · refine ih (para ++ "\n") (k + 1) hps2 ?_ c hc2
        right
        obtain ⟨ch, hch, hsp⟩ := hpara
        refine ⟨ch, ?_, hsp⟩
        rw [String.data_append]
        exact List.mem_append_left _ hch
    · rw [if_neg hcond] at hc
      refine ih (current ++ para ++ "\n") k hps2 ?_ c hc
      right
      obtain ⟨ch, hch, hsp⟩ := hpara
      refine ⟨ch, ?_, hsp⟩
      rw [String.data_append, String.data_append]
      exact List.mem_append_left _ (List.mem_append_right _ hch)

theorem docxGo_bound {cfg : Cfg} {src : String} {imgs : List (String × String)}
    {lks : List String} {P : List String}
    (hP : ∀ p ∈ P, trimChars p.data = p.data) :
    ∀ (paras : List String) (current : String) (k : Nat),
      (∀ p ∈ paras, p ∈ P) →
      (current = "" ∨ (∃ p ∈ P, current = p ++ "\n") ∨
        (∃ u : String, current = u ++ "\n" ∧ u.length ≤ cfg.maxSize)) →
      ∀ c ∈ chunkDocxGo cfg src imgs lks paras current k,
        c.content.length ≤ cfg.maxSize ∨ c.content ∈ P := by
  have hemit : ∀ current : String,
      ((∃ p ∈ P, current = p ++ "\n") ∨
        (∃ u : String, current = u ++ "\n" ∧ u.length ≤ cfg.maxSize)) →
      (pyStrip current).length ≤ cfg.maxSize ∨ pyStrip current ∈ P := by
    intro current h
    have hnl : ("\n" : String).data = ['\n'] := rfl
    rcases h with ⟨p, hp, rfl⟩ | ⟨u, rfl, hu⟩
    · right
      have hd : trimChars (p ++ "\n").data = p.data := by
        rw [String.data_append, hnl, trim_append_space (by decide), hP p hp]
      have hps : pyStrip (p ++ "\n") = p := strExt hd
      rw [hps]
      exact hp
    · left
      have hd : trimChars (u ++ "\n").data = trimChars u.data := by
        rw [String.data_append, hnl]
        exact trim_append_space (by decide)
      calc (pyStrip (u ++ "\n")).length
          = (trimChars (u ++ "\n").data).length := rfl
        _ = (trimChars u.data).length := by rw [hd]
        _ ≤ u.data.length := trimChars_length_le _
        _ = u.length := rfl
        _ ≤ cfg.maxSize := hu
  intro paras
  induction paras with
  | nil =>
    intro current k _ hcur c hc
    unfold chunkDocxGo at hc
    by_cases hb : pyStrip current = ""
    · rw [if_pos hb] at hc
      simp at hc
    · rw [if_neg hb] at hc
      rcases List.mem_singleton.mp hc with rfl
      rcases hcur with rfl | hcur2
      · exact absurd rfl hb
      · exact hemit current hcur2
  | cons para rest ih =>
    intro current k hsub hcur c hc
    have hpmem : para ∈ P := hsub para (List.mem_cons_self _ _)
    have hsub2 : ∀ p ∈ rest, p ∈ P := fun p hp => hsub p (List.mem_cons_of_mem _ hp)
    unfold chunkDocxGo at hc
    by_cases hcond : current.length + para.length > cfg.maxSize ∧ current ≠ ""
    · rw [if_pos hcond] at hc
      rcases List.mem_cons.mp hc with rfl | hc2
      · rcases hcur with rfl | hcur2
        · exact absurd rfl hcond.2
        · exact hemit current hcur2
      · refine ih (para ++ "\n") (k + 1) hsub2 ?_ c hc2
        right; left
        exact ⟨para, hpmem, rfl⟩
    · rw [if_neg hcond] at hc
      refine ih (current ++ para ++ "\n") k hsub2 ?_ c hc
      rcases Decidable.not_and_iff_or_not.mp hcond with hA | hB
      · right; right
        refine ⟨current ++ para, rfl, ?_⟩
        rw [String.length_append]
        omega
      · have hce : current = "" := Decidable.not_not.mp hB
        right; left
        refine ⟨para, hpmem, ?_⟩
        rw [hce]
        exact strExt (by simp [String.data_append])

/-! ## Helper lemmas: splitting on a single separator character -/

theorem splitOnGo_cons_eq (sep : List Char) (fuel : Nat) (c : Char)
    (rest : List Char) :
    splitOnGo sep (fuel + 1) (c :: rest) =
      if startsWithChars sep (c :: rest) then
        [] :: splitOnGo sep fuel ((c :: rest).drop sep.length)
      else
        match splitOnGo sep fuel rest with
        | [] => [[c]]
        | r :: rs => (c :: r) :: rs := rfl

theorem splitOnGo_single {c : Char} :
    ∀ (l : List Char) (fuel : Nat), l.length < fuel →
      (∀ x ∈ l, x ≠ c) → splitOnGo [c] fuel l = [l] := by
  intro l
  induction l with
  | nil =>
    intro fuel hf _
    cases fuel with
    | zero => omega
    | succ f => rfl
  | cons d rest ih =>
    intro fuel hf hx
    cases fuel with
    | zero => omega
    | succ f =>
      rw [splitOnGo_cons_eq]
      have hd : (c == d) = false :=
        beq_eq_false_iff_ne.mpr
          (fun he => (hx d (List.mem_cons_self _ _)) he.symm)
      have hs : ¬ startsWithChars [c] (d :: rest) = true := by
        simp [startsWithChars, hd]
      rw [if_neg hs]
      rw [ih f (by simp at hf ⊢; omega)
        (fun x hx2 => hx x (List.mem_cons_of_mem _ hx2))]

theorem splitOnGo_fuelSwap {sep : List Char} (hsep : sep ≠ []) :
    ∀ (f1 : Nat) (l : List Char) (f2 : Nat), l.length < f1 → l.length < f2 →
      splitOnGo sep f1 l = splitOnGo sep f2 l := by
  intro f1
  induction f1 with
  | zero => intro l f2 h; omega
  | succ g ih =>
    intro l f2 h1 h2
    cases f2 with
    | zero => omega
    | succ h =>
    cases l with
    | nil => rfl
    | cons d rest =>
      have hslen : 1 ≤ sep.length := by
        cases sep with
        | nil => exact absurd rfl hsep
        | cons a b => simp
      rw [splitOnGo_cons_eq, splitOnGo_cons_eq]
      by_cases hs : startsWithChars sep (d :: rest) = true
      · rw [if_pos hs, if_pos hs]
        congr 1
        refine ih _ _ ?_ ?_ <;>
          · rw [List.length_drop]
            simp at h1 h2 ⊢
            omega
      · rw [if_neg hs, if_neg hs]
        rw [ih rest h (by simp at h1; omega) (by simp at h2; omega)]

theorem splitOnGo_break {c : Char} :
    ∀ (a r : List Char) (fuel fuel2 : Nat),
      a.length + r.length + 1 < fuel → r.length < fuel2 → (∀ x ∈ a, x ≠ c) →
      splitOnGo [c] fuel (a ++ c :: r) = a :: splitOnGo [c] fuel2 r := by
  intro a
  induction a with
  | nil =>
    intro r fuel fuel2 hf hf2 _
    cases fuel with
    | zero => omega
    | succ f =>
      show splitOnGo [c] (f + 1) (c :: r) = [] :: splitOnGo [c] fuel2 r
      rw [splitOnGo_cons_eq]
      have hs : startsWithChars [c] (c :: r) = true := by
        simp [startsWithChars]
      rw [if_pos hs]
      congr 1
      exact splitOnGo_fuelSwap (List.cons_ne_nil c []) f r fuel2
        (by simp at hf; omega) hf2
  | cons d as ih =>
    intro r fuel fuel2 hf hf2 hx
    cases fuel with
    | zero => omega
    | succ f =>
      rw [List.cons_append, splitOnGo_cons_eq]
      have hd : (c == d) = false :=
        beq_eq_false_iff_ne.mpr
          (fun he => (hx d (List.mem_cons_self _ _)) he.symm)
      have hs : ¬ startsWithChars [c] (d :: (as ++ c :: r)) = true := by
        simp [startsWithChars, hd]
      rw [if_neg hs]
      rw [ih r f fuel2 (by simp at hf ⊢; omega) hf2
        (fun x hx2 => hx x (List.mem_cons_of_mem _ hx2))]

/-! ## Helper lemmas: the docx loop equations and the Scenario 3 input -/

theorem chunkDocxGo_cons_eq (cfg : Cfg) (src : String)
    (imgs : List (String × String)) (lks : List String) (para : String)
    (rest : List String) (current : String) (k : Nat) :
    chunkDocxGo cfg src imgs lks (para :: rest) current k =
      if current.length + para.length > cfg.maxSize ∧ current ≠ "" then
        docxChunk src imgs lks k (pyStrip current) ::
          chunkDocxGo cfg src imgs lks rest (para ++ "\n") (k + 1)
      else chunkDocxGo cfg src imgs lks rest (current ++ para ++ "\n") k := rfl

theorem chunkDocxGo_nil_eq (cfg : Cfg) (src : String)
    (imgs : List (String × String)) (lks : List String) (current : String)
    (k : Nat) :
    chunkDocxGo cfg src imgs lks [] current k =
      if pyStrip current = "" then []
      else [docxChunk src imgs lks k (pyStrip current)] := rfl

theorem xRun_nonspace : ∀ x ∈ List.replicate 1200 'x', isPySpace x = false := by
  intro x hx
  rcases List.mem_replicate.mp hx with ⟨_, rfl⟩
  decide

theorem xRun_ne_nl : ∀ x ∈ List.replicate 1200 'x', x ≠ '\n' := by
  intro x hx
  rcases List.mem_replicate.mp hx with ⟨_, rfl⟩
  decide

theorem xRun_str_ne : (⟨List.replicate 1200 'x'⟩ : String) ≠ "" := by
  intro h
  have h2 := congrArg String.data h
  have h3 := congrArg List.length h2
  simp at h3

theorem xRun_strip :
    pyStrip (⟨List.replicate 1200 'x'⟩ : String) = ⟨List.replicate 1200 'x'⟩ :=
  strExt (trim_all_nonspace xRun_nonspace)

theorem c6_split : pySplit c6Text "\n" =
    ["Para one.", "Para two.", (⟨List.replicate 1200 'x'⟩ : String)] := by
  have hdata : c6Text.data = "Para one.".data ++
      '\n' :: ("Para two.".data ++ '\n' :: List.replicate 1200 'x') := by
    show ("Para one.\nPara two.\n" ++
      (⟨List.replicate 1200 'x'⟩ : String)).data = _
    rw [String.data_append]
    have h20 : ("Para one.\nPara two.\n" : String).data
        = "Para one.".data ++ '\n' :: ("Para two.".data ++ ['\n']) := by decide
    rw [h20]
    simp [List.append_assoc]
  unfold pySplit
  rw [if_neg (by decide)]
  rw [hdata]
  rw [splitOnGo_break _ _ _ ("Para two.".data.length +
        (List.replicate 1200 'x').length + 2)
      (by simp only [List.length_append, List.length_cons]; omega)
      (by simp only [List.length_append, List.length_cons]; omega)
      (by decide)]
  rw [splitOnGo_break _ _ _ ((List.replicate 1200 'x').length + 1)
      (by simp only [List.length_append, List.length_cons]; omega)
      (by omega) (by decide)]
  rw [splitOnGo_single _ _ (by omega) xRun_ne_nl]
  rfl

theorem c6_paragraphs : docxParagraphs c6Text =
    ["Para one.", "Para two.", (⟨List.replicate 1200 'x'⟩ : String)] := by
  unfold docxParagraphs
  rw [c6_split]
  have step : ∀ (a : String) (l : List String) (b : String),
      (if pyStrip a = "" then none else some (pyStrip a)) = some b →
      List.filterMap
        (fun p => if pyStrip p = "" then none else some (pyStrip p)) (a :: l)
        = b :: List.filterMap
            (fun p => if pyStrip p = "" then none else some (pyStrip p)) l := by
    intro a l b h
    exact List.filterMap_cons_some h
  have hf3 : (if pyStrip (⟨List.replicate 1200 'x'⟩ : String) = "" then none
      else some (pyStrip (⟨List.replicate 1200 'x'⟩ : String)))
      = some (⟨List.replicate 1200 'x'⟩ : String) := by
    rw [if_neg (by rw [xRun_strip]; exact xRun_str_ne), xRun_strip]
  rw [step "Para one." _ "Para one." (by decide),
      step "Para two." _ "Para two." (by decide), step _ _ _ hf3,
      List.filterMap_nil]

theorem c6_result : chunkDocx ⟨1000, 200⟩ c6Text "file.docx" [] [] =
    [docxChunk "file.docx" [] [] 0 "Para one.\nPara two.",
     docxChunk "file.docx" [] [] 1 (⟨List.replicate 1200 'x'⟩ : String)] := by
  have hxlen : (⟨List.replicate 1200 'x'⟩ : String).length = 1200 := by
    show (List.replicate 1200 'x').length = 1200
    exact List.length_replicate _ _
  unfold chunkDocx
  rw [c6_paragraphs]
  rw [chunkDocxGo_cons_eq, if_neg (by simp)]
  rw [show ("" : String) ++ "Para one." ++ "\n" = "Para one.\n" from by decide]
  rw [chunkDocxGo_cons_eq, if_neg (by decide)]
  rw [show ("Para one.\n" : String) ++ "Para two." ++ "\n" =
      "Para one.\nPara two.\n" from by decide]
  rw [chunkDocxGo_cons_eq, if_pos ?cond]
  case cond =>
    constructor
    · rw [hxlen]
      decide
    · decide
  rw [show pyStrip "Para one.\nPara two.\n" = "Para one.\nPara two." from
      by decide]
  rw [chunkDocxGo_nil_eq]
  have hstrip : pyStrip ((⟨List.replicate 1200 'x'⟩ : String) ++ "\n") =
      (⟨List.replicate 1200 'x'⟩ : String) := by
    refine strExt ?_
    show trimChars ((⟨List.replicate 1200 'x'⟩ : String) ++ "\n").data
        = (⟨List.replicate 1200 'x'⟩ : String).data
    rw [String.data_append]
    show trimChars (List.replicate 1200 'x' ++ ['\n']) = List.replicate 1200 'x'
    rw [trim_append_space (by decide), trim_all_nonspace xRun_nonspace]
  rw [if_neg (by rw [hstrip]; exact xRun_str_ne), hstrip]

/-! ## Helper lemmas: txt and default chunkers -/

theorem chunkTxt_mem {cfg : Cfg} {text src : String} {c : Chunk}
    (h : c ∈ chunkTxt cfg text src) :
    ∃ p ∈ splitText cfg text, c.content = p := by
  unfold chunkTxt at h
  obtain ⟨ic, hic, rfl⟩ := List.mem_map.mp h
  exact ⟨ic.2, mem_enum_snd hic, rfl⟩

theorem chunkDefault_mem {cfg : Cfg} {text src : String}
    {imgs : List (String × String)} {lks : List String} {c : Chunk}
    (h : c ∈ chunkDefault cfg text src imgs lks) :
    ∃ p ∈ splitText cfg text, c.content = p := by
  unfold chunkDefault at h
  obtain ⟨ic, hic, rfl⟩ := List.mem_map.mp h
  exact ⟨ic.2, mem_enum_snd hic, rfl⟩

/-! ## Claim C1 -/

/-- C1, counterexample: with `max_size = 10`, a pptx slide whose body
`"ab cd ef\ngh ij kl mn"` has 20 characters and contains internal
boundaries (a line break) is still emitted as one chunk of length 20 —
`_chunk_pptx` never applies the Size-Bounded Splitter, so the claimed
size bound fails for pptx. -/
theorem c1_counterexample :
    (chunkPptx ⟨10, 2⟩ "--- Slide 1 ---\nab cd ef\ngh ij kl mn" "f.pptx"
        [] []).map (List.map (fun c => c.content.length)) = .ok [20] ∧
    10 < 20 ∧
    pyIn "\n" "ab cd ef\ngh ij kl mn" = true := by
  refine ⟨by decide, by decide, by decide⟩

/-- C1, amended: the size bound `len(content) ≤ max_size` holds for pdf
(small pages are emitted whole under the bound, oversized pages go through
the Size-Bounded Splitter), for txt and unknown documents (everything goes
through the splitter), and for docx up to the single-paragraph exception (a
chunk is either within the bound or is exactly one whitespace-trimmed
source paragraph emitted whole); pptx slides are emitted whole regardless
of size, so no bound holds there. -/
theorem c1_amended :
    (∀ (cfg : Cfg) (text src : String) (imgs : List (String × String))
        (lks : List String) (cs : List Chunk),
      chunkPdf cfg text src imgs lks = .ok cs →
      ∀ c ∈ cs, c.content.length ≤ cfg.maxSize) ∧
    (∀ (cfg : Cfg) (text src : String) (imgs : List (String × String))
        (lks : List String),
      ∀ c ∈ chunkDocx cfg text src imgs lks,
        c.content.length ≤ cfg.maxSize ∨ c.content ∈ docxParagraphs text) ∧
    (∀ (cfg : Cfg) (text src : String),
      ∀ c ∈ chunkTxt cfg text src, c.content.length ≤ cfg.maxSize) ∧
    (∀ (cfg : Cfg) (text src : String) (imgs : List (String × String))
        (lks : List String),
      ∀ c ∈ chunkDefault cfg text src imgs lks,
        c.content.length ≤ cfg.maxSize) := by
  refine ⟨?_, ?_, ?_, ?_⟩
  · intro cfg text src imgs lks cs h c hc
    exact (pdfGo_chunks _ cs h c hc).2.2.1
  · intro cfg text src imgs lks c hc
    unfold chunkDocx at hc
    refine docxGo_bound (fun p hp => (docxParagraphs_spec p hp).1)
      (docxParagraphs text) "" 0 (fun p hp => hp) (Or.inl rfl) c hc
  · intro cfg text src c hc
    obtain ⟨p, hp, hcp⟩ := chunkTxt_mem hc
    rw [hcp]
    exact (splitText_mem hp).1
  · intro cfg text src imgs lks c hc
    obtain ⟨p, hp, hcp⟩ := chunkDefault_mem hc
    rw [hcp]
    exact (splitText_mem hp).1

/-- C1, witness for the amended theorem at a concrete input and chunk. -/
theorem c1_amended_witness :
    (⟨"ab cd ef", "f.txt", "txt_chunk_0", "txt", none, none, none, none,
      some 3, none, none⟩ : Chunk).content.length ≤ (10 : Nat) :=
  c1_amended.2.2.1 ⟨10, 2⟩ "ab cd ef gh ij kl mn op" "f.txt"
    ⟨"ab cd ef", "f.txt", "txt_chunk_0", "txt", none, none, none, none,
      some 3, none, none⟩ (by decide)

/-! ## Claim C2 -/

/-- C2, counterexample: with `max_size = 10`, the pptx segmenter yields the
single segment `(1, "ab cd ef\ngh ij kl mn")` whose body exceeds
`max_size`, yet `_chunk_pptx` emits exactly one chunk with
`chunk_id = "slide_1"` — not the claimed per-piece ids of the form
`"slide_1_chunk_<j>"` (its id does not even contain `"_chunk_"`). -/
theorem c2_counterexample :
    pptxSegments "--- Slide 1 ---\nab cd ef\ngh ij kl mn"
      = .ok [(1, "ab cd ef\ngh ij kl mn")] ∧
    ("ab cd ef\ngh ij kl mn" : String).length = 20 ∧ 10 < 20 ∧
    (chunkPptx ⟨10, 2⟩ "--- Slide 1 ---\nab cd ef\ngh ij kl mn" "f.pptx"
        [] []).map (List.map (fun c => c.chunkId)) = .ok ["slide_1"] ∧
    pyIn "_chunk_" "slide_1" = false := by
  refine ⟨by decide, by decide, by decide, by decide, by decide⟩

/-- C2, amended: the claimed per-segment policy holds for pdf — for each
retained `(label, body)` segment, the chunker emits the Size-Bounded
Splitter pieces as `"page_<label>_chunk_<j>"` chunks when
`len(body) > max_size` and a single `"page_<label>"` chunk otherwise
(`pdfSegChunks` is exactly that policy) — while pptx always emits exactly
one `"slide_<label>"` chunk per retained non-blank segment, with no
splitting. -/
theorem c2_amended :
    ∀ (cfg : Cfg) (text src : String) (imgs : List (String × String))
      (lks : List String),
      (chunkPdf cfg text src imgs lks =
        (pdfSegments text).map
          (fun segs => segs.bind
            (fun nb => pdfSegChunks cfg src imgs lks
              ((pySplit text "--- Page ").length - 1) nb.1 nb.2))) ∧
      (chunkPptx cfg text src imgs lks =
        (pptxSegments text).map
          (fun segs => segs.bind
            (fun nb => if pyStrip nb.2 = "" then []
              else [pptxChunk src imgs lks
                ((pySplit text "--- Slide ").length - 1) nb.1 nb.2]))) := by
  intro cfg text src imgs lks
  exact ⟨pdfGo_decomp _, pptxGo_decomp _⟩

/-! ## Claim C3 -/

/-- C3, counterexample: on the pdf input `"--- Page X ---\nBody"` the label
token `"X"` does not parse as an integer and the chunker raises (the
`ValueError` of `int(...)` propagates); it does not substitute a sequential
ordinal and continue.  The pptx path behaves identically. -/
theorem c3_counterexample :
    chunkPdf ⟨1000, 200⟩ "--- Page X ---\nBody" "f.pdf" [] []
      = .error "ValueError: invalid literal for int() with base 10" ∧
    chunkPptx ⟨1000, 200⟩ "--- Slide X ---\nBody" "f.pptx" [] []
      = .error "ValueError: invalid literal for int() with base 10" := by
  refine ⟨by decide, by decide⟩

/-- C3, amended: an unparsable page/slide label is not recovered — the
chunker succeeds exactly when every retained segment's label parses, and
raises (propagates the `int(...)` error) as soon as some retained label
fails to parse. -/
theorem c3_amended :
    ∀ (cfg : Cfg) (text src : String) (imgs : List (String × String))
      (lks : List String),
      ((∃ cs, chunkPdf cfg text src imgs lks = .ok cs) ↔
        ∀ lab ∈ pdfSegLabels text, lab.isSome = true) ∧
      ((∃ cs, chunkPptx cfg text src imgs lks = .ok cs) ↔
        ∀ lab ∈ pptxSegLabels text, lab.isSome = true) := by
  intro cfg text src imgs lks
  exact ⟨pdfGo_ok_iff _, pptxGo_ok_iff _⟩

/-! ## Claim C4 -/

/-- C4, counterexample: the pdf input `"--- Page 1 ---\n   "` has a page
whose body after the marker line is whitespace-only, but whose raw part
(`"1 ---\n   "`) is not blank, so the page is retained and the chunker
emits a single chunk with whitespace-only content `"   "`. -/
theorem c4_counterexample :
    (chunkPdf ⟨1000, 200⟩ "--- Page 1 ---\n   " "f.pdf" [] []).map
      (List.map (fun c => c.content)) = .ok ["   "] ∧
    pyStrip "   " = "" := by
  refine ⟨by decide, by decide⟩

/-- C4, amended: no chunk emitted for a docx, pptx, txt or unknown document
is empty or whitespace-only (every such chunk's content has a
non-whitespace character); the guarantee does not hold for pdf, where a
page body that is whitespace-only after the marker line is emitted as-is. -/
theorem c4_amended :
    (∀ (cfg : Cfg) (text src : String) (imgs : List (String × String))
        (lks : List String),
      ∀ c ∈ chunkDocx cfg text src imgs lks,
        ∃ ch ∈ c.content.data, isPySpace ch = false) ∧
    (∀ (cfg : Cfg) (text src : String) (imgs : List (String × String))
        (lks : List String) (cs : List Chunk),
      chunkPptx cfg text src imgs lks = .ok cs →
      ∀ c ∈ cs, ∃ ch ∈ c.content.data, isPySpace ch = false) ∧
    (∀ (cfg : Cfg) (text src : String),
      ∀ c ∈ chunkTxt cfg text src,
        ∃ ch ∈ c.content.data, isPySpace ch = false) ∧
    (∀ (cfg : Cfg) (text src : String) (imgs : List (String × String))
        (lks : List String),
      ∀ c ∈ chunkDefault cfg text src imgs lks,
        ∃ ch ∈ c.content.data, isPySpace ch = false) := by
  refine ⟨?_, ?_, ?_, ?_⟩
  · intro cfg text src imgs lks c hc
    unfold chunkDocx at hc
    exact docxGo_nonblank (docxParagraphs text) "" 0
      (fun p hp => (docxParagraphs_spec p hp).2) (Or.inl rfl) c hc
  · intro cfg text src imgs lks cs h c hc
    exact (pptxGo_chunks _ cs h c hc).2.2.1
  · intro cfg text src c hc
    obtain ⟨p, hp, hcp⟩ := chunkTxt_mem hc
    rw [hcp]
    exact (splitText_mem hp).2
  · intro cfg text src imgs lks c hc
    obtain ⟨p, hp, hcp⟩ := chunkDefault_mem hc
    rw [hcp]
    exact (splitText_mem hp).2

/-- C4, witness for the amended theorem at a concrete input and chunk. -/
theorem c4_amended_witness :
    ∃ ch ∈ (⟨"Hello\nWorld", "f.docx", "docx_chunk_0", "docx", none, none,
      none, none, none, some [], some []⟩ : Chunk).content.data,
      isPySpace ch = false :=
  c4_amended.1 ⟨1000, 200⟩ "Hello\n\nWorld" "f.docx" [] []
    ⟨"Hello\nWorld", "f.docx", "docx_chunk_0", "docx", none, none,
      none, none, none, some [], some []⟩ (by decide)

/-! ## Claim C5 -/

/-- C5, counterexample: the pdf input in which the marker number `1`
appears twice produces two chunks that both carry `chunk_id = "page_1"`,
so the chunk ids of one document are not pairwise distinct. -/
theorem c5_counterexample :
    (chunkPdf ⟨1000, 200⟩ "--- Page 1 ---\nA\n--- Page 1 ---\nB" "f.pdf"
        [] []).map (List.map (fun c => c.chunkId))
      = .ok ["page_1", "page_1"] ∧
    ¬ (["page_1", "page_1"] : List String).Nodup := by
  refine ⟨by decide, by decide⟩

/-- C5, amended: chunk ids are pairwise distinct for docx, txt and unknown
documents unconditionally; for pdf and pptx they are pairwise distinct
provided the labels of the retained segments are pairwise distinct — when
the same page/slide number appears in more than one marker the ids repeat. -/
theorem c5_amended :
    (∀ (cfg : Cfg) (text src : String) (imgs : List (String × String))
        (lks : List String) (cs : List Chunk),
      chunkPdf cfg text src imgs lks = .ok cs →
      (pdfSegLabels text).Nodup →
      (cs.map (fun c => c.chunkId)).Nodup) ∧
    (∀ (cfg : Cfg) (text src : String) (imgs : List (String × String))
        (lks : List String) (cs : List Chunk),
      chunkPptx cfg text src imgs lks = .ok cs →
      (pptxSegLabels text).Nodup →
      (cs.map (fun c => c.chunkId)).Nodup) ∧
    (∀ (cfg : Cfg) (text src : String) (imgs : List (String × String))
        (lks : List String),
      ((chunkDocx cfg text src imgs lks).map (fun c => c.chunkId)).Nodup) ∧
    (∀ (cfg : Cfg) (text src : String),
      ((chunkTxt cfg text src).map (fun c => c.chunkId)).Nodup) ∧
    (∀ (cfg : Cfg) (text src : String) (imgs : List (String × String))
        (lks : List String),
      ((chunkDefault cfg text src imgs lks).map (fun c => c.chunkId)).Nodup) := by
  refine ⟨?_, ?_, ?_, ?_, ?_⟩
  · intro cfg text src imgs lks cs h hnd
    exact (pdfGo_ids_nodup _ cs h hnd).1
  · intro cfg text src imgs lks cs h hnd
    exact (pptxGo_ids_nodup _ cs h hnd).1
  · intro cfg text src imgs lks
    unfold chunkDocx
    obtain ⟨m, hm⟩ := docxGo_ids (docxParagraphs text) "" 0
    rw [hm]
    exact (List.nodup_range' _ _).map (fun a b hab => natTag_inj hab)
  · intro cfg text src
    unfold chunkTxt
    rw [List.map_map]
    exact enum_fst_map_nodup (fun i => "txt_chunk_" ++ natRepr i)
      (fun a b hab => natTag_inj hab) _
  · intro cfg text src imgs lks
    unfold chunkDefault
    rw [List.map_map]
    exact enum_fst_map_nodup (fun i => "chunk_" ++ natRepr i)
      (fun a b hab => natTag_inj hab) _

/-- C5, witness for the amended theorem at concrete inputs. -/
theorem c5_amended_witness :
    (([⟨"Hello world", "doc.pdf", "page_1", "pdf", some 1, none, some 1,
        none, none, some [], some []⟩] : List Chunk).map
      (fun c => c.chunkId)).Nodup := by
  have h1 : chunkPdf ⟨1000, 200⟩ "--- Page 1 ---\nHello world" "doc.pdf" [] []
      = .ok [⟨"Hello world", "doc.pdf", "page_1", "pdf", some 1, none,
          some 1, none, none, some [], some []⟩] := by decide
  exact c5_amended.1 ⟨1000, 200⟩ "--- Page 1 ---\nHello world" "doc.pdf"
    [] [] _ h1 (by decide)

/-! ## Claim C6 -/

/-- C6: the docx assembler flushes the buffer as one chunk exactly when
appending the next trimmed paragraph would push a non-empty buffer over
`max_size`, starting the new buffer with that paragraph (first conjunct),
and otherwise appends the paragraph to the buffer (second conjunct); on the
spec's Scenario 3 input (`c6Text`, `max_size = 1000`) the first flush
happens before the oversized 1200-character paragraph is appended,
producing exactly the two chunks `"docx_chunk_0"` (the two short
paragraphs) and `"docx_chunk_1"` (the oversized paragraph), with strictly
increasing counters. -/
theorem c6_docx :
    (∀ (cfg : Cfg) (src : String) (imgs : List (String × String))
        (lks : List String) (para : String) (rest : List String)
        (current : String) (k : Nat),
      current.length + para.length > cfg.maxSize → current ≠ "" →
      chunkDocxGo cfg src imgs lks (para :: rest) current k =
        docxChunk src imgs lks k (pyStrip current) ::
          chunkDocxGo cfg src imgs lks rest (para ++ "\n") (k + 1)) ∧
    (∀ (cfg : Cfg) (src : String) (imgs : List (String × String))
        (lks : List String) (para : String) (rest : List String)
        (current : String) (k : Nat),
      ¬ (current.length + para.length > cfg.maxSize ∧ current ≠ "") →
      chunkDocxGo cfg src imgs lks (para :: rest) current k =
        chunkDocxGo cfg src imgs lks rest (current ++ para ++ "\n") k) ∧
    chunkDocx ⟨1000, 200⟩ c6Text "file.docx" [] [] =
      [docxChunk "file.docx" [] [] 0 "Para one.\nPara two.",
       docxChunk "file.docx" [] [] 1 (⟨List.replicate 1200 'x'⟩ : String)] ∧
    (chunkDocx ⟨1000, 200⟩ c6Text "file.docx" [] []).map (fun c => c.chunkId)
      = ["docx_chunk_0", "docx_chunk_1"] := by
  refine ⟨?_, ?_, c6_result, ?_⟩
  · intro cfg src imgs lks para rest current k h1 h2
    rw [chunkDocxGo_cons_eq, if_pos ⟨h1, h2⟩]
  · intro cfg src imgs lks para rest current k h
    rw [chunkDocxGo_cons_eq, if_neg h]
  · rw [c6_result]
    rfl

/-- C6, witness for the flush equations at concrete inputs: a 12-character
buffer plus a 3-character paragraph overflows `max_size = 10`, so the
buffer is flushed and the new buffer starts with the paragraph. -/
theorem c6_docx_witness :
    chunkDocxGo ⟨10, 2⟩ "s" [] [] ["abc"] "012345678912" 0 =
      docxChunk "s" [] [] 0 (pyStrip "012345678912") ::
        chunkDocxGo ⟨10, 2⟩ "s" [] [] [] ("abc" ++ "\n") 1 :=
  c6_docx.1 ⟨10, 2⟩ "s" [] [] "abc" [] "012345678912" 0 (by decide) (by decide)

/-! ## Claim C7 -/

/-- C7: for pdf documents every emitted chunk carries the full link list
and exactly the images whose identifier contains the positional tag
`"page{n}"` of the chunk's page (the filter of the source); likewise for
pptx with `"slide{n}"`; on the spec's Scenario 4 input the chunk of page 2
contains exactly the image `("doc_page2_img1", "OCR text")` and the chunk
of page 1 excludes it, while both carry the full link list. -/
theorem c7_images :
    (∀ (cfg : Cfg) (text src : String) (imgs : List (String × String))
        (lks : List String) (cs : List Chunk),
      chunkPdf cfg text src imgs lks = .ok cs →
      ∀ c ∈ cs, c.links = some lks ∧ ∃ n : Int, c.page = some n ∧
        c.images = some (imagesFor ("page" ++ intRepr n) imgs)) ∧
    (∀ (cfg : Cfg) (text src : String) (imgs : List (String × String))
        (lks : List String) (cs : List Chunk),
      chunkPptx cfg text src imgs lks = .ok cs →
      ∀ c ∈ cs, c.links = some lks ∧ ∃ n : Int, c.slide = some n ∧
        c.images = some (imagesFor ("slide" ++ intRepr n) imgs)) ∧
    (chunkPdf ⟨1000, 200⟩
        "--- Page 1 ---\nPage one text\n--- Page 2 ---\nPage two text"
        "f.pdf" [("doc_page2_img1", "OCR text")] ["http://x"]).map
      (List.map (fun c => (c.chunkId, c.images)))
      = .ok [("page_1", some []),
             ("page_2", some [("doc_page2_img1", "OCR text")])] ∧
    (chunkPdf ⟨1000, 200⟩
        "--- Page 1 ---\nPage one text\n--- Page 2 ---\nPage two text"
        "f.pdf" [("doc_page2_img1", "OCR text")] ["http://x"]).map
      (List.map (fun c => c.links))
      = .ok [some ["http://x"], some ["http://x"]] := by
  refine ⟨?_, ?_, by decide, by decide⟩
  · intro cfg text src imgs lks cs h c hc
    obtain ⟨_, hl, _, hrest⟩ := pdfGo_chunks _ cs h c hc
    exact ⟨hl, hrest⟩
  · intro cfg text src imgs lks cs h c hc
    obtain ⟨_, hl, _, hrest⟩ := pptxGo_chunks _ cs h c hc
    exact ⟨hl, hrest⟩

/-- C7, witness for the general pdf part at a concrete input and chunk. -/
theorem c7_images_witness :
    (⟨"Page two text", "f.pdf", "page_2", "pdf", some 2, none, some 2, none,
      none, some [("doc_page2_img1", "OCR text")], some ["http://x"]⟩ :
        Chunk).links = some ["http://x"] ∧
    ∃ n : Int,
      (⟨"Page two text", "f.pdf", "page_2", "pdf", some 2, none, some 2,
        none, none, some [("doc_page2_img1", "OCR text")],
        some ["http://x"]⟩ : Chunk).page = some n ∧
      (⟨"Page two text", "f.pdf", "page_2", "pdf", some 2, none, some 2,
        none, none, some [("doc_page2_img1", "OCR text")],
        some ["http://x"]⟩ : Chunk).images
        = some (imagesFor ("page" ++ intRepr n)
            [("doc_page2_img1", "OCR text")]) :=
  c7_images.1 ⟨1000, 200⟩
    "--- Page 1 ---\nPage one text\n--- Page 2 ---\nPage two text" "f.pdf"
    [("doc_page2_img1", "OCR text")] ["http://x"]
    [⟨"Page one text\n", "f.pdf", "page_1", "pdf", some 1, none, some 2,
      none, none, some [], some ["http://x"]⟩,
     ⟨"Page two text", "f.pdf", "page_2", "pdf", some 2, none, some 2, none,
      none, some [("doc_page2_img1", "OCR text")], some ["http://x"]⟩]
    (by decide) _ (by decide)

/-! ## Claim C8 -/

/-- C8: for the empty input text and any file path — hence under every
policy the dispatch can select: pdf, docx, pptx, txt or the unknown
default — the chunking pipeline returns the empty chunk sequence and no
error. -/
theorem c8_empty :
    ∀ (cfg : Cfg) (path : String) (imgs : List (String × String))
      (lks : List String),
      chunkDocument cfg "" path imgs lks = .ok [] := by
  intro cfg path imgs lks
  have hpdf : chunkPdf cfg "" path imgs lks = .ok [] := by
    unfold chunkPdf
    have h2 : ∀ tp, chunkPdfGo cfg path imgs lks tp [(0, "")] = .ok [] := by
      intro tp
      unfold chunkPdfGo
      rw [if_pos (show pyStrip "" = "" from rfl)]
      rfl
    exact h2 _
  have hpptx : chunkPptx cfg "" path imgs lks = .ok [] := by
    unfold chunkPptx
    have h2 : ∀ ts, chunkPptxGo cfg path imgs lks ts [(0, "")] = .ok [] := by
      intro ts
      unfold chunkPptxGo
      rw [if_pos (show pyStrip "" = "" from rfl)]
      rfl
    exact h2 _
  have hdocx : chunkDocx cfg "" path imgs lks = [] := by
    unfold chunkDocx
    have h1 : docxParagraphs "" = [] := rfl
    rw [h1, chunkDocxGo_nil_eq, if_pos (show pyStrip "" = "" from rfl)]
  have htxt : chunkTxt cfg "" path = [] := by
    unfold chunkTxt
    rw [splitText_empty]
    rfl
  have hdef : chunkDefault cfg "" path imgs lks = [] := by
    unfold chunkDefault
    rw [splitText_empty]
    rfl
  show (if lastExt path = "pdf" then chunkPdf cfg "" path imgs lks
    else if lastExt path = "docx" then
      Except.ok (chunkDocx cfg "" path imgs lks)
    else if lastExt path = "pptx" then chunkPptx cfg "" path imgs lks
    else if lastExt path = "txt" then Except.ok (chunkTxt cfg "" path)
    else Except.ok (chunkDefault cfg "" path imgs lks)) = Except.ok []
  split_ifs
  · exact hpdf
  · rw [hdocx]
  · exact hpptx
  · rw [htxt]
  · rw [hdef]

/-! ## Claim C9 -/

/-- C9, counterexample: the line `"1. Introduction"` matches both the
numbered-section header heuristic and the numbered-list pattern, and the
two detections are independent `if` statements, so the same line is
reported both as a header (level 2) and as a numbered list item. -/
theorem c9_counterexample :
    (extractHeadersAndStructure "1. Introduction").headers
      = [{ text := "1. Introduction", lineNumber := 0, level := 2 }] ∧
    (extractHeadersAndStructure "1. Introduction").lists
      = [{ text := "1. Introduction", lineNumber := 0, kind := "numbered" }] := by
  refine ⟨by decide, by decide⟩

/-- C9, amended: header detection and list detection are independent —
the analyzer's result is exactly the pair of line-wise filters
(`headerEntryOf`, `listEntryOf`) applied to the same enumerated lines, so
one line can be reported in both lists; in particular
`"1. Introduction"` appears both among the headers and among the list
items. -/
theorem c9_amended :
    (∀ text : String, extractHeadersAndStructure text =
      { headers := (pySplit text "\n").enum.filterMap headerEntryOf,
        lists := (pySplit text "\n").enum.filterMap listEntryOf,
        tables := [], sections := [] }) ∧
    ({ text := "1. Introduction", lineNumber := 0, level := 2 } : HeaderEntry)
      ∈ (extractHeadersAndStructure "1. Introduction").headers ∧
    ({ text := "1. Introduction", lineNumber := 0, kind := "numbered" } :
      ListEntry) ∈ (extractHeadersAndStructure "1. Introduction").lists := by
  refine ⟨?_, by decide, by decide⟩
  intro text
  have hstep : ∀ (il : Nat × String) (H : List HeaderEntry)
      (L : List ListEntry) (T S : List String),
      extractStep ⟨H, L, T, S⟩ il =
        ⟨H ++ (headerEntryOf il).toList, L ++ (listEntryOf il).toList,
          T, S⟩ := by
    intro il H L T S
    unfold extractStep headerEntryOf listEntryOf
    by_cases h1 : headerTest (pyStrip il.2).data <;>
      by_cases h2 : listTest (pyStrip il.2).data <;>
        simp [h1, h2]
  have main : ∀ (l : List (Nat × String)) (H : List HeaderEntry)
      (L : List ListEntry) (T S : List String),
      l.foldl extractStep ⟨H, L, T, S⟩ =
        ⟨H ++ l.filterMap headerEntryOf, L ++ l.filterMap listEntryOf,
          T, S⟩ := by
    intro l
    induction l with
    | nil => intro H L T S; simp
    | cons il rest ih =>
      intro H L T S
      have hH : (H ++ (headerEntryOf il).toList)
            ++ rest.filterMap headerEntryOf
          = H ++ (il :: rest).filterMap headerEntryOf := by
        rw [List.append_assoc]
        congr 1
        cases hh : headerEntryOf il with
        | none => rw [List.filterMap_cons_none hh]; simp
        | some e => rw [List.filterMap_cons_some hh]; simp
      have hL : (L ++ (listEntryOf il).toList)
            ++ rest.filterMap listEntryOf
          = L ++ (il :: rest).filterMap listEntryOf := by
        rw [List.append_assoc]
        congr 1
        cases hl : listEntryOf il with
        | none => rw [List.filterMap_cons_none hl]; simp
        | some e => rw [List.filterMap_cons_some hl]; simp
      rw [List.foldl_cons, hstep, ih, hH, hL]
  unfold extractHeadersAndStructure
  rw [main]
  simp

/-! ## Claim C10 -/

/-- C10, counterexample: the dot-free path `"pdf"` yields the whole name as
the extension, which equals `"pdf"`, so the pdf policy is selected — not
the unknown/default policy the claim asserts for every dot-free path (the
default policy would have tagged the chunk `"unknown"`). -/
theorem c10_counterexample :
    lastExt "pdf" = "pdf" ∧
    pyIn "." "pdf" = false ∧
    (chunkDocument ⟨1000, 200⟩ "Hello" "pdf" [] []).map
      (List.map (fun c => c.docType)) = .ok ["pdf"] ∧
    (chunkDefault ⟨1000, 200⟩ "Hello" "pdf" [] []).map (fun c => c.docType)
      = ["unknown"] := by
  refine ⟨by decide, by decide, by decide, by decide⟩

/-- C10, amended: the policy is selected solely from the substring after
the last `'.'` of the lowercased path (`lastExt`); a dot-free path yields
the whole lowercased name, which is then matched like any extension — so
the dot-free path `"pdf"` selects the pdf policy rather than falling
through to the default — and only the final dot-segment is consulted:
`"file.PDF"` is treated as pdf while `"file.pdf.bak"` is treated as
unknown. -/
theorem c10_amended :
    (∀ (cfg : Cfg) (text path : String) (imgs : List (String × String))
        (lks : List String),
      chunkDocument cfg text path imgs lks =
        (if lastExt path = "pdf" then chunkPdf cfg text path imgs lks
         else if lastExt path = "docx" then
           .ok (chunkDocx cfg text path imgs lks)
         else if lastExt path = "pptx" then chunkPptx cfg text path imgs lks
         else if lastExt path = "txt" then .ok (chunkTxt cfg text path)
         else .ok (chunkDefault cfg text path imgs lks))) ∧
    lastExt "file.PDF" = "pdf" ∧
    lastExt "file.pdf.bak" = "bak" ∧
    lastExt "pdf" = "pdf" ∧
    (chunkDocument ⟨1000, 200⟩ "--- Page 1 ---\nHello" "file.PDF" [] []).map
      (List.map (fun c => c.docType)) = .ok ["pdf"] ∧
    (chunkDocument ⟨1000, 200⟩ "Hello" "file.pdf.bak" [] []).map
      (List.map (fun c => c.docType)) = .ok ["unknown"] := by
  refine ⟨?_, by decide, by decide, by decide, by decide, by decide⟩
  intro cfg text path imgs lks
  rfl
